import Mathlib

/-!
Verification of the pairing-heap implementation in `PairingHeap.h`
(`template<typename T, typename Comparator> class PairingHeap`).

The C++ heap is a pointer structure: each `PHNode` holds an `Element`
(an `(id, key)` pair) plus four links `parent`, `left`, `right`, `son`.
The children of a node form a circular doubly-linked ring, entered
through the `son` anchor.  We embed a node as a rose tree whose child
list records the ring in anchor order (the order obtained by starting
at `son` and following `right` pointers); `parent` and the ring links
are determined by that list, so every pointer manipulation of the
source becomes an explicit list manipulation here.

The heap object (`sz`, `maxsz`, `pos`, `root`) is embedded as a record;
`pos[id]` is a pointer into the tree, so its observable content is the
liveness bit (modelled as `pos : Int → Bool`) while dereferencing it is
modelled by looking the id up in the tree.  C++ `throw` is modelled by
`Except`: a throwing operation returns `.error e` and, like a C++
exception raised before any mutation, leaves the caller's heap value
untouched.

The comparator template parameter is an arbitrary `lt : K → K → Bool`;
theorems that need the std::less strict-weak-order contract take it as
an explicit hypothesis (`SWO`).
-/

namespace PH

/-- `struct Element { int id; T key; }` (PairingHeap.h:87-93). -/
structure Element (K : Type) where
  id : Int
  key : K
deriving DecidableEq

/-- A `PHNode` (PairingHeap.h:102-108) with its subtree: the element and
the child ring in anchor order (`son` first, then following `right`). -/
inductive Tree (K : Type) where
  | node (id : Int) (key : K) (children : List (Tree K))

/-- The id stored at the root node of a subtree. -/
def Tree.rootId {K : Type} : Tree K → Int
  | .node i _ _ => i

/-- The key stored at the root node of a subtree. -/
def Tree.rootKey {K : Type} : Tree K → K
  | .node _ k _ => k

/-- The child ring of the root node, in anchor order. -/
def Tree.children {K : Type} : Tree K → List (Tree K)
  | .node _ _ cs => cs

mutual
/-- All elements stored in a subtree (root first, then the subtrees of
the children in ring order). -/
def Tree.elems {K : Type} : Tree K → List (Element K)
  | .node i k cs => ⟨i, k⟩ :: elemsL cs
/-- All elements stored in a list of subtrees. -/
def elemsL {K : Type} : List (Tree K) → List (Element K)
  | [] => []
  | c :: cs => c.elems ++ elemsL cs
end

/-- The ids stored in a subtree. -/
def Tree.ids {K : Type} (t : Tree K) : List Int := t.elems.map Element.id

/--
`merge(x, y)` (PairingHeap.h:149-164): swap so that `x` holds the
smaller key (`if (less(y->elem.key, x->elem.key)) swap(x, y)`; ties keep
the first argument), then splice `y` into `x`'s child ring directly
before the old anchor `x->son` and re-anchor `x->son = y`, so in anchor
order `y` becomes the first child.
-/
def merge {K : Type} (lt : K → K → Bool) (x y : Tree K) : Tree K :=
  if lt y.rootKey x.rootKey then .node y.rootId y.rootKey (x :: y.children)
  else .node x.rootId x.rootKey (y :: x.children)

/-- `merge` lifted to optional operands, as realised at the call sites:
`insert` runs `root = root ? merge(root, p) : p` (PairingHeap.h:284) and
`combine_siblings` returns `0` for a null input (PairingHeap.h:185-186),
so an absent operand is an identity element. -/
def mergeO {K : Type} (lt : K → K → Bool) : Option (Tree K) → Option (Tree K) → Option (Tree K)
  | none, y => y
  | some x, none => some x
  | some x, some y => some (merge lt x y)

/-- `merge` instrumented with the number of comparator invocations it
performs: the body of PairingHeap.h:149-164 evaluates
`less(y->elem.key, x->elem.key)` once and contains no other comparator
call and no allocation. -/
def mergeCount {K : Type} (lt : K → K → Bool) (x y : Tree K) : Tree K × Nat :=
  let swap := lt y.rootKey x.rootKey
  (if swap then .node y.rootId y.rootKey (x :: y.children)
   else .node x.rootId x.rootKey (y :: x.children), 1)

/--
Phase 1 of `combine_siblings` (PairingHeap.h:187-203): walk the ring
from `x` following `right` pointers, merging adjacent pairs
(`n1 = merge(n1, n2)` — the left node of the pair is the first merge
argument) and appending each result to the intermediate list; when the
walk wraps around to `x` with a single node left (`n2 == x`), that node
is appended unmerged.
-/
def pairPass {K : Type} (lt : K → K → Bool) : List (Tree K) → List (Tree K)
  | [] => []
  | [n1] => [n1]
  | n1 :: n2 :: rest => merge lt n1 n2 :: pairPass lt rest

/--
`combine_siblings(x)` (PairingHeap.h:184-215) on the ring of `x` in
anchor order.  `x == 0` returns `0`.  Otherwise phase 1 (`pairPass`)
produces the intermediate left-to-right list; phase 2 (lines 205-213)
starts from its last node (`res = end`) and walks the `left` links,
merging `res = merge(res, p)` at each step, i.e. a right fold over the
list with the running result as first merge argument.
-/
def combine_siblings {K : Type} (lt : K → K → Bool) : List (Tree K) → Option (Tree K)
  | [] => none
  | cs =>
    let l := pairPass lt cs
    match l.getLast? with
    | none => none
    | some lastT => some (l.dropLast.foldr (fun p res => merge lt res p) lastT)

/-- Phase 1 as worded in the specification: walk the ring left to right
pairing adjacent nodes via merge; an odd leftover node is appended
unmerged. -/
def pairUpSpec {K : Type} (lt : K → K → Bool) : List (Tree K) → List (Tree K)
  | [] => []
  | [a] => [a]
  | a :: b :: rest => merge lt a b :: pairUpSpec lt rest

/-- Phase 2 as worded in the specification: fold the intermediate list
from its right end leftward, repeatedly merging the running result with
the next node to its left. -/
def foldBackSpec {K : Type} (lt : K → K → Bool) : List (Tree K) → Option (Tree K)
  | [] => none
  | a :: rest =>
    match foldBackSpec lt rest with
    | none => some a
    | some r => some (merge lt r a)

/-- The two-phase combining policy exactly as the specification states
it, with empty result on a null input. -/
def combineSpec {K : Type} (lt : K → K → Bool) (cs : List (Tree K)) : Option (Tree K) :=
  foldBackSpec lt (pairUpSpec lt cs)

/--
Removal of the node at position `j` from a child ring in anchor order
(the cut in `decrease_key`, PairingHeap.h:341-355).  If the node is the
only child the parent's `son` becomes null; if it is the anchor
(`pp->son == p`) the parent re-anchors at `p->left`, the last node in
anchor order, so the remaining ring reads `[last, c2, …, c_{k-1}]`;
otherwise the ring is spliced with the anchor unchanged.
-/
def ringRemove {K : Type} : List (Tree K) → Nat → List (Tree K)
  | [], 0 => []
  | _ :: rest, 0 =>
    match rest.getLast? with
    | none => []
    | some z => z :: rest.dropLast
  | cs, j + 1 => cs.eraseIdx (j + 1)

mutual
/--
Locating and cutting the (non-root) node with id `tid`.  The C++ code
reaches the node in O(1) through `pos[tid]` and detaches it from its
parent's ring (PairingHeap.h:341-355); in the functional model we search
the tree for the unique node with that id and perform the same ring
surgery, returning the cut subtree and the remaining tree.
-/
def cutT {K : Type} (tid : Int) : Tree K → Option (Tree K × Tree K)
  | .node i k cs =>
    match cs.findIdx? (fun c => c.rootId == tid) with
    | some j =>
      match cs[j]? with
      | some cj => some (cj, .node i k (ringRemove cs j))
      | none => none
    | none =>
      match cutCs tid cs with
      | some (sub, cs2) => some (sub, .node i k cs2)
      | none => none
/-- `cutT` extended over a list of sibling subtrees. -/
def cutCs {K : Type} (tid : Int) : List (Tree K) → Option (Tree K × List (Tree K))
  | [] => none
  | c :: cs =>
    match cutT tid c with
    | some (sub, c2) => some (sub, c2 :: cs)
    | none =>
      match cutCs tid cs with
      | some (sub, cs2) => some (sub, c :: cs2)
      | none => none
end

/-- The exception taxonomy (PairingHeap.h:120-121, 368-378). -/
inductive PHError where
  | EMPTY
  | BAD_ID
  | ALREADY_EXISTS
  | NO_SUCH_ELEMENT
deriving DecidableEq

/-- The heap object (PairingHeap.h:110-117): current size `sz`, maximal
size `maxsz`, the address table `pos` (observably: which ids hold a live
node) and the root pointer. -/
structure Heap (K : Type) where
  sz : Nat
  maxsz : Int
  pos : Int → Bool
  root : Option (Tree K)

/-- `PairingHeap(int max_size)` (PairingHeap.h:236-240): size 0, null
root, `pos` zeroed. -/
def Heap.empty (K : Type) (max_size : Int) : Heap K :=
  { sz := 0, maxsz := max_size, pos := fun _ => false, root := none }

/-- `contains(id)` (PairingHeap.h:262-264). -/
def Heap.contains {K : Type} (h : Heap K) (id : Int) : Bool :=
  decide (0 ≤ id) && decide (id < h.maxsz) && h.pos id

/-- `ensure_not_existing(id)` (PairingHeap.h:124-129). -/
def Heap.ensure_not_existing {K : Type} (h : Heap K) (id : Int) : Except PHError Unit :=
  if id < 0 ∨ h.maxsz ≤ id then .error .BAD_ID
  else if h.pos id then .error .ALREADY_EXISTS
  else .ok ()

/-- `ensure_existing(id)` (PairingHeap.h:131-136). -/
def Heap.ensure_existing {K : Type} (h : Heap K) (id : Int) : Except PHError Unit :=
  if id < 0 ∨ h.maxsz ≤ id then .error .BAD_ID
  else if h.pos id = false then .error .NO_SUCH_ELEMENT
  else .ok ()

/-- `ensure_nonempty()` (PairingHeap.h:138-141). -/
def Heap.ensure_nonempty {K : Type} (h : Heap K) : Except PHError Unit :=
  if h.sz = 0 then .error .EMPTY else .ok ()

/-- Dereferencing `pos[id]->elem.key`: the key of the live node with the
given id, found by searching the tree (the unique such node, for
well-formed heaps). -/
def Heap.keyOf {K : Type} (h : Heap K) (id : Int) : Option K :=
  h.root.bind fun r => (r.elems.find? (fun e => e.id == id)).map Element.key

/-- `get_key(id)` (PairingHeap.h:269-272): `ensure_existing(id)`, then
read `pos[id]->elem.key`.  (The inner `NO_SUCH_ELEMENT` default covers
ill-formed states in which `pos` and the tree disagree; such states
never arise from the public interface.) -/
def Heap.get_key {K : Type} (h : Heap K) (id : Int) : Except PHError K :=
  match h.ensure_existing id with
  | .error e => .error e
  | .ok _ =>
    match h.keyOf id with
    | some k => .ok k
    | none => .error .NO_SUCH_ELEMENT

/-- `insert(id, key)` (PairingHeap.h:280-286): `ensure_not_existing`,
allocate the singleton node, record it in `pos`, merge with the current
root (existing root as first merge argument) and increment the size. -/
def Heap.insert {K : Type} (lt : K → K → Bool) (h : Heap K) (id : Int) (key : K) :
    Except PHError (Heap K) :=
  match h.ensure_not_existing id with
  | .error e => .error e
  | .ok _ =>
    let p : Tree K := .node id key []
    .ok { h with
          pos := fun j => if j = id then true else h.pos j,
          root := some (match h.root with
                        | some r => merge lt r p
                        | none => p),
          sz := h.sz + 1 }

/-- `find_min()` (PairingHeap.h:291-294): `ensure_nonempty`, then return
`root->elem`.  (The inner `EMPTY` default covers the unreachable
ill-formed state `sz ≠ 0` with a null root.) -/
def Heap.find_min {K : Type} (h : Heap K) : Except PHError (Element K) :=
  match h.ensure_nonempty with
  | .error e => .error e
  | .ok _ =>
    match h.root with
    | some r => .ok ⟨r.rootId, r.rootKey⟩
    | none => .error .EMPTY

/-- `delete_min()` (PairingHeap.h:301-310): `ensure_nonempty`, save
`root->elem`, clear `pos[r.id]`, free the root, decrement the size, and
replace the root by `combine_siblings(root->son)`. -/
def Heap.delete_min {K : Type} (lt : K → K → Bool) (h : Heap K) :
    Except PHError (Element K × Heap K) :=
  match h.ensure_nonempty with
  | .error e => .error e
  | .ok _ =>
    match h.root with
    | none => .error .EMPTY
    | some r =>
      let e : Element K := ⟨r.rootId, r.rootKey⟩
      .ok (e, { h with
                pos := fun j => if j = e.id then false else h.pos j,
                sz := h.sz - 1,
                root := combine_siblings lt r.children })

/-- `decrease_key(id, newkey)` (PairingHeap.h:334-362): read
`get_key(id)` (which throws on an invalid or dead id); if
`less(current, newkey)` the call silently does nothing; otherwise, if
the node is the root its key is overwritten in place, else the node is
cut from its ring, its key overwritten, and the subtree merged with the
root, the updated node passed as the first merge argument. -/
def Heap.decrease_key {K : Type} (lt : K → K → Bool) (h : Heap K) (id : Int) (newkey : K) :
    Except PHError (Heap K) :=
  match h.get_key id with
  | .error e => .error e
  | .ok cur =>
    if lt cur newkey = false then
      match h.root with
      | none => .ok h
      | some r =>
        if r.rootId = id then
          .ok { h with root := some (.node r.rootId newkey r.children) }
        else
          match cutT id r with
          | none => .ok h
          | some (sub, rest) =>
            let p : Tree K := .node sub.rootId newkey sub.children
            .ok { h with root := some (merge lt p rest) }
    else .ok h

/-- `remove(id)` (PairingHeap.h:320-324): `ensure_existing(id)`, then
`decrease_key(id, root->elem.key)` followed by `delete_min()`. -/
def Heap.remove {K : Type} (lt : K → K → Bool) (h : Heap K) (id : Int) :
    Except PHError (Element K × Heap K) :=
  match h.ensure_existing id with
  | .error e => .error e
  | .ok _ =>
    match h.root with
    | none => .error .NO_SUCH_ELEMENT
    | some r =>
      match h.decrease_key lt id r.rootKey with
      | .error e => .error e
      | .ok h2 => h2.delete_min lt

/-! ### Destruction (PairingHeap.h:220-233, 241-245) -/

mutual
/-- The order in which `recursively_destruct(x)` frees the nodes of a
subtree: the children's subtrees in ring order, then `x` itself
(PairingHeap.h:220-233). -/
def destructOrder {K : Type} : Tree K → List (Element K)
  | .node i k cs => destructOrderL cs ++ [⟨i, k⟩]
/-- `destructOrder` over the sibling ring, in ring order. -/
def destructOrderL {K : Type} : List (Tree K) → List (Element K)
  | [] => []
  | c :: cs => destructOrder c ++ destructOrderL cs
end

mutual
/-- The maximal nesting depth of recursive `recursively_destruct` calls
reached while freeing a subtree: the call on `x` is one stack frame,
inside which the call recurses into each child subtree
(PairingHeap.h:220-233). -/
def destructDepth {K : Type} : Tree K → Nat
  | .node _ _ cs => 1 + destructDepthL cs
/-- Maximal `destructDepth` over a list of sibling subtrees. -/
def destructDepthL {K : Type} : List (Tree K) → Nat
  | [] => 0
  | c :: cs => max (destructDepth c) (destructDepthL cs)
end

/-! ### The public interface as a transition system -/

/-- One call to a public mutating or observing method. -/
inductive Op (K : Type) where
  | opInsert (id : Int) (key : K)
  | opFindMin
  | opDeleteMin
  | opRemove (id : Int)
  | opDecreaseKey (id : Int) (key : K)
  | opGetKey (id : Int)

/-- Run one public operation: the next heap state, plus the exception it
raised, if any.  A C++ method that throws does so before mutating
anything, so the caller's heap object is unchanged; the model returns
the untouched heap together with the error. -/
def runOp {K : Type} (lt : K → K → Bool) (h : Heap K) : Op K → Heap K × Option PHError
  | .opInsert id k =>
    match h.insert lt id k with
    | .ok h2 => (h2, none)
    | .error e => (h, some e)
  | .opFindMin =>
    match h.find_min with
    | .ok _ => (h, none)
    | .error e => (h, some e)
  | .opDeleteMin =>
    match h.delete_min lt with
    | .ok (_, h2) => (h2, none)
    | .error e => (h, some e)
  | .opRemove id =>
    match h.remove lt id with
    | .ok (_, h2) => (h2, none)
    | .error e => (h, some e)
  | .opDecreaseKey id k =>
    match h.decrease_key lt id k with
    | .ok h2 => (h2, none)
    | .error e => (h, some e)
  | .opGetKey id =>
    match h.get_key id with
    | .ok _ => (h, none)
    | .error e => (h, some e)

/-- The next heap state after one public operation. -/
def stepOp {K : Type} (lt : K → K → Bool) (h : Heap K) (o : Op K) : Heap K :=
  (runOp lt h o).1

/-- Heap states reachable from a freshly constructed heap by any
sequence of public operations (including failing ones, which leave the
state unchanged). -/
inductive Reachable {K : Type} (lt : K → K → Bool) : Heap K → Prop where
  | empty (max_size : Int) : Reachable lt (Heap.empty K max_size)
  | step {h : Heap K} (o : Op K) : Reachable lt h → Reachable lt (stepOp lt h o)

/-! ### Invariants -/

/-- All elements currently stored in the heap (empty for a null root). -/
def rootElems {K : Type} (h : Heap K) : List (Element K) :=
  h.root.elim [] Tree.elems

/-- The heap-order invariant: each node's key is ordered no later than
(per the comparator) every key in the subtrees of its children. -/
inductive HeapOrd {K : Type} (lt : K → K → Bool) : Tree K → Prop where
  | node {i : Int} {k : K} {cs : List (Tree K)}
      (hsub : ∀ c ∈ cs, HeapOrd lt c)
      (hle : ∀ c ∈ cs, ∀ e ∈ Tree.elems c, lt e.key k = false) :
      HeapOrd lt (.node i k cs)

/-- Well-formedness of a heap state: the root is heap-ordered, `sz`
counts the live nodes, the `pos` table is synchronised with the live id
set, live ids are in range, and ids are unique. -/
structure WF {K : Type} (lt : K → K → Bool) (h : Heap K) : Prop where
  ord : ∀ r, h.root = some r → HeapOrd lt r
  size_eq : h.sz = (rootElems h).length
  pos_iff : ∀ id, h.pos id = true ↔ id ∈ (rootElems h).map Element.id
  pos_range : ∀ id, h.pos id = true → 0 ≤ id ∧ id < h.maxsz
  nodup : ((rootElems h).map Element.id).Nodup

/-- The strict-weak-order contract C++ imposes on a comparator such as
`std::less` (asymmetry, and transitivity of the derived non-strict
order `a ≤ b ↔ ¬ lt b a`). -/
structure SWO {K : Type} (lt : K → K → Bool) : Prop where
  asymm : ∀ a b, lt a b = true → lt b a = false
  le_trans : ∀ a b c, lt b a = false → lt c b = false → lt c a = false

theorem SWO.irrefl {K : Type} {lt : K → K → Bool} (hs : SWO lt) (a : K) : lt a a = false := by
  cases hab : lt a a with
  | false => rfl
  | true => exact (hab ▸ hs.asymm a a hab)

/-! ### Drivers for the end-to-end properties -/

/-- Insert the keys of `ks` in order under the consecutive ids
`start, start+1, …` (a failing insert, which cannot occur in the uses
below, leaves the heap unchanged, as the raised exception would). -/
def insertSeq {K : Type} (lt : K → K → Bool) (h : Heap K) (start : Int) : List K → Heap K
  | [] => h
  | k :: ks =>
    insertSeq lt
      (match h.insert lt start k with
       | .ok h2 => h2
       | .error _ => h)
      (start + 1) ks

/-- Call `delete_min` up to `n` times, collecting the returned elements;
stops early if the heap raises `EMPTY`. -/
def extractN {K : Type} (lt : K → K → Bool) : Nat → Heap K → List (Element K)
  | 0, _ => []
  | n + 1, h =>
    match h.delete_min lt with
    | .error _ => []
    | .ok (e, h2) => e :: extractN lt n h2

/-- The comparator `std::less<int>`. -/
def intLt (a b : Int) : Bool := decide (a < b)

theorem intLt_swo : SWO intLt := by
  constructor
  · intro a b hab
    simp only [intLt, decide_eq_true_eq] at hab
    simp only [intLt, decide_eq_false_iff_not]
    omega
  · intro a b c hba hcb
    simp only [intLt, decide_eq_false_iff_not] at hba hcb
    simp only [intLt, decide_eq_false_iff_not]
    omega

/-- The heap obtained from `PairingHeap(m)` by inserting the strictly
descending keys `0, -1, -2, …, -(n-1)` under ids `0, …, n-1` through
the public `insert`: each insert makes the new node the root with the
previous tree as its only child, producing a chain of depth `n`. -/
def descHeap (m : Int) : Nat → Heap Int
  | 0 => Heap.empty Int m
  | n + 1 =>
    match (descHeap m n).insert intLt (n : Int) (-(n : Int)) with
    | .ok h2 => h2
    | .error _ => descHeap m n

/-- The chain `descHeap` builds: `chainTree n` is the root after `n+1`
inserts. -/
def chainTree : Nat → Tree Int
  | 0 => .node 0 0 []
  | n + 1 => .node (n + 1 : Nat) (-(n + 1 : Nat) : Int) [chainTree n]

/-! ### Basic lemmas about trees and element lists -/

theorem Tree.my_ind {K : Type} {P : Tree K → Prop}
    (h : ∀ i k cs, (∀ c ∈ cs, P c) → P (.node i k cs)) : ∀ t, P t := by
  intro t
  induction t using Tree.rec (motive_2 := fun cs => ∀ c ∈ cs, P c) with
  | node i k cs ih => exact h i k cs ih
  | nil => rename_i c hc; cases hc
  | cons hd tl ihh iht =>
    rename_i c hc
    cases hc with
    | head => exact ihh
    | tail _ hm => exact iht c hm

@[simp]
theorem elems_node {K : Type} (i : Int) (k : K) (cs : List (Tree K)) :
    Tree.elems (.node i k cs) = ⟨i, k⟩ :: elemsL cs := by
  rw [Tree.elems]

@[simp]
theorem elemsL_nil {K : Type} : elemsL ([] : List (Tree K)) = [] := by
  rw [elemsL]

@[simp]
theorem elemsL_cons {K : Type} (c : Tree K) (cs : List (Tree K)) :
    elemsL (c :: cs) = c.elems ++ elemsL cs := by
  rw [elemsL]

theorem elemsL_append {K : Type} (a b : List (Tree K)) :
    elemsL (a ++ b) = elemsL a ++ elemsL b := by
  induction a with
  | nil => simp
  | cons c cs ih => simp [ih]

theorem mem_elemsL {K : Type} {e : Element K} {cs : List (Tree K)} :
    e ∈ elemsL cs ↔ ∃ c ∈ cs, e ∈ c.elems := by
  induction cs with
  | nil => simp
  | cons c cs ih =>
    simp only [elemsL_cons, List.mem_append, ih, List.mem_cons]
    constructor
    · rintro (h | ⟨c2, hc2, he⟩)
      · exact ⟨c, Or.inl rfl, h⟩
      · exact ⟨c2, Or.inr hc2, he⟩
    · rintro ⟨c2, (rfl | hc2), he⟩
      · exact Or.inl he
      · exact Or.inr ⟨c2, hc2, he⟩

theorem elems_eq_cons {K : Type} (t : Tree K) :
    t.elems = ⟨t.rootId, t.rootKey⟩ :: elemsL t.children := by
  cases t with
  | node i k cs => simp [Tree.rootId, Tree.rootKey, Tree.children]

theorem self_mem_elems {K : Type} (t : Tree K) :
    (⟨t.rootId, t.rootKey⟩ : Element K) ∈ t.elems := by
  rw [elems_eq_cons]; exact List.mem_cons_self _ _

theorem elems_ne_nil {K : Type} (t : Tree K) : t.elems ≠ [] := by
  rw [elems_eq_cons]; exact List.cons_ne_nil _ _

/-- For a heap-ordered tree every stored key is no earlier than the root
key (needs asymmetry for the root element itself). -/
theorem HeapOrd.le_root {K : Type} {lt : K → K → Bool} (hs : SWO lt) {t : Tree K}
    (h : HeapOrd lt t) : ∀ e ∈ t.elems, lt e.key t.rootKey = false := by
  cases h with
  | @node i k cs hsub hle =>
    intro e he
    simp only [elems_node, List.mem_cons] at he
    rcases he with rfl | he
    · exact hs.irrefl _
    · rcases mem_elemsL.mp he with ⟨c, hc, hec⟩
      exact hle c hc e hec

/-! ### Lemmas about `merge` -/

theorem merge_of_not_lt {K : Type} {lt : K → K → Bool} {x y : Tree K}
    (h : lt y.rootKey x.rootKey = false) :
    merge lt x y = .node x.rootId x.rootKey (y :: x.children) := by
  simp [merge, h]

theorem merge_of_lt {K : Type} {lt : K → K → Bool} {x y : Tree K}
    (h : lt y.rootKey x.rootKey = true) :
    merge lt x y = .node y.rootId y.rootKey (x :: y.children) := by
  simp [merge, h]

theorem merge_elems_perm {K : Type} (lt : K → K → Bool) (x y : Tree K) :
    (merge lt x y).elems.Perm (x.elems ++ y.elems) := by
  by_cases h : lt y.rootKey x.rootKey = true
  · rw [merge_of_lt h, elems_node, elemsL_cons, elems_eq_cons y]
    exact List.perm_middle.symm
  · rw [merge_of_not_lt (by simpa using h), elems_node, elemsL_cons, elems_eq_cons x,
      List.cons_append]
    exact List.Perm.cons _ List.perm_append_comm

theorem merge_heapOrd {K : Type} {lt : K → K → Bool} (hs : SWO lt) {x y : Tree K}
    (hx : HeapOrd lt x) (hy : HeapOrd lt y) : HeapOrd lt (merge lt x y) := by
  cases x with
  | node xi xk xcs =>
    cases y with
    | node yi yk ycs =>
      have hxroot : Tree.rootKey (.node xi xk xcs) = xk := rfl
      have hyroot : Tree.rootKey (.node yi yk ycs) = yk := rfl
      by_cases h : lt yk xk = true
      · rw [show merge lt (.node xi xk xcs) (.node yi yk ycs)
              = .node yi yk (.node xi xk xcs :: ycs) by
            simp [merge, Tree.rootKey, Tree.rootId, Tree.children, h]]
        cases hy with
        | node hysub hyle =>
          refine HeapOrd.node ?_ ?_
          · intro c hc
            rcases List.mem_cons.mp hc with rfl | hc
            · exact hx
            · exact hysub c hc
          · intro c hc e he
            rcases List.mem_cons.mp hc with rfl | hc
            · have h1 := hx.le_root hs e he
              rw [hxroot] at h1
              exact hs.le_trans _ _ _ (hs.asymm _ _ h) h1
            · exact hyle c hc e he
      · have h0 : lt yk xk = false := by simpa using h
        rw [show merge lt (.node xi xk xcs) (.node yi yk ycs)
              = .node xi xk (.node yi yk ycs :: xcs) by
            simp [merge, Tree.rootKey, Tree.rootId, Tree.children, h0]]
        cases hx with
        | node hxsub hxle =>
          refine HeapOrd.node ?_ ?_
          · intro c hc
            rcases List.mem_cons.mp hc with rfl | hc
            · exact hy
            · exact hxsub c hc
          · intro c hc e he
            rcases List.mem_cons.mp hc with rfl | hc
            · have h1 := hy.le_root hs e he
              rw [hyroot] at h1
              exact hs.le_trans _ _ _ h0 h1
            · exact hxle c hc e he

/-! ### Lemmas about `pairPass`, `combine_siblings` and the two-phase
specification -/

theorem twoStepInd {A : Type} {P : List A → Prop} (h0 : P []) (h1 : ∀ a, P [a])
    (h2 : ∀ a b l, P l → P (a :: b :: l)) : ∀ l, P l
  | [] => h0
  | [a] => h1 a
  | a :: b :: l => h2 a b l (twoStepInd h0 h1 h2 l)

@[simp]
theorem pairPass_nil {K : Type} (lt : K → K → Bool) : pairPass lt ([] : List (Tree K)) = [] := rfl

@[simp]
theorem pairPass_single {K : Type} (lt : K → K → Bool) (a : Tree K) :
    pairPass lt [a] = [a] := rfl

@[simp]
theorem pairPass_cons_cons {K : Type} (lt : K → K → Bool) (a b : Tree K) (l : List (Tree K)) :
    pairPass lt (a :: b :: l) = merge lt a b :: pairPass lt l := rfl

theorem pairPass_ne_nil {K : Type} (lt : K → K → Bool) {cs : List (Tree K)} (h : cs ≠ []) :
    pairPass lt cs ≠ [] := by
  induction cs using twoStepInd with
  | h0 => exact absurd rfl h
  | h1 a => exact List.cons_ne_nil _ _
  | h2 a b l ih => exact List.cons_ne_nil _ _

theorem pairPass_elems_perm {K : Type} (lt : K → K → Bool) (cs : List (Tree K)) :
    (elemsL (pairPass lt cs)).Perm (elemsL cs) := by
  induction cs using twoStepInd with
  | h0 => simp
  | h1 a => simp
  | h2 a b l ih =>
    simp only [pairPass_cons_cons, elemsL_cons]
    have h1 := (merge_elems_perm lt a b).append ih
    rw [List.append_assoc] at h1
    exact h1

theorem pairPass_heapOrd {K : Type} {lt : K → K → Bool} (hs : SWO lt) {cs : List (Tree K)}
    (h : ∀ c ∈ cs, HeapOrd lt c) : ∀ c ∈ pairPass lt cs, HeapOrd lt c := by
  induction cs using twoStepInd with
  | h0 => exact h
  | h1 a => exact h
  | h2 a b l ih =>
    simp only [pairPass_cons_cons, List.mem_cons] at *
    rintro c (rfl | hc)
    · exact merge_heapOrd hs (h a (Or.inl rfl)) (h b (Or.inr (Or.inl rfl)))
    · exact ih (fun c2 hc2 => h c2 (Or.inr (Or.inr hc2))) c hc

theorem pairPass_eq_pairUpSpec {K : Type} (lt : K → K → Bool) (cs : List (Tree K)) :
    pairPass lt cs = pairUpSpec lt cs := by
  induction cs using twoStepInd with
  | h0 => rfl
  | h1 a => rfl
  | h2 a b l ih => simp only [pairPass_cons_cons, pairUpSpec, ih]

/-- Phase 2 as written in the source (fold from the last intermediate
root backwards through the `left` links) computes the right-to-left fold
of the specification. -/
theorem foldBackSpec_eq_fold {K : Type} (lt : K → K → Bool) :
    ∀ (l : List (Tree K)), l ≠ [] →
      foldBackSpec lt l =
        match l.getLast? with
        | none => none
        | some lastT => some (l.dropLast.foldr (fun p res => merge lt res p) lastT) := by
  intro l
  induction l with
  | nil => intro h; exact absurd rfl h
  | cons a rest ih =>
    intro _
    cases rest with
    | nil => rfl
    | cons b l2 =>
      have hne : b :: l2 ≠ [] := List.cons_ne_nil _ _
      have ihr := ih hne
      rw [foldBackSpec, ihr]
      rcases hlast : (b :: l2).getLast? with _ | lastT
      · simp at hlast
      · simp only [List.getLast?_cons_cons, hlast,
          List.dropLast_cons_of_ne_nil hne, List.foldr_cons]

theorem foldBackSpec_none_iff {K : Type} (lt : K → K → Bool) (l : List (Tree K)) :
    foldBackSpec lt l = none ↔ l = [] := by
  cases l with
  | nil => simp [foldBackSpec]
  | cons a rest =>
    simp only [foldBackSpec]
    rcases h : foldBackSpec lt rest with _ | r <;> simp

theorem foldBackSpec_elems {K : Type} (lt : K → K → Bool) :
    ∀ (l : List (Tree K)) (t : Tree K), foldBackSpec lt l = some t →
      t.elems.Perm (elemsL l) := by
  intro l
  induction l with
  | nil => intro t ht; simp [foldBackSpec] at ht
  | cons a rest ih =>
    intro t ht
    rw [foldBackSpec] at ht
    rcases h : foldBackSpec lt rest with _ | r
    · rw [h] at ht
      have : rest = [] := (foldBackSpec_none_iff lt rest).mp h
      subst this
      simp only [Option.some.injEq] at ht
      subst ht
      simp
    · rw [h] at ht
      simp only [Option.some.injEq] at ht
      subst ht
      have h2 := (merge_elems_perm lt r a).trans ((ih r h).append (List.Perm.refl _))
      have h3 : (a.elems ++ elemsL rest).Perm (elemsL (a :: rest)) := by
        rw [elemsL_cons]
      exact h2.trans (List.perm_append_comm.trans h3)

theorem foldBackSpec_heapOrd {K : Type} {lt : K → K → Bool} (hs : SWO lt) :
    ∀ (l : List (Tree K)) (t : Tree K), (∀ c ∈ l, HeapOrd lt c) →
      foldBackSpec lt l = some t → HeapOrd lt t := by
  intro l
  induction l with
  | nil => intro t _ ht; simp [foldBackSpec] at ht
  | cons a rest ih =>
    intro t hord ht
    rw [foldBackSpec] at ht
    rcases h : foldBackSpec lt rest with _ | r
    · rw [h] at ht
      simp only [Option.some.injEq] at ht
      subst ht
      exact hord a (List.mem_cons_self _ _)
    · rw [h] at ht
      simp only [Option.some.injEq] at ht
      subst ht
      exact merge_heapOrd hs
        (ih r (fun c hc => hord c (List.mem_cons_of_mem _ hc)) h)
        (hord a (List.mem_cons_self _ _))

/-- The loop structure of `combine_siblings` computes exactly the
two-phase policy as the specification words it. -/
theorem combine_siblings_eq_combineSpec {K : Type} (lt : K → K → Bool)
    (cs : List (Tree K)) : combine_siblings lt cs = combineSpec lt cs := by
  cases cs with
  | nil => rfl
  | cons c cs2 =>
    have hne : c :: cs2 ≠ [] := List.cons_ne_nil _ _
    have hpne : pairPass lt (c :: cs2) ≠ [] := pairPass_ne_nil lt hne
    rw [combineSpec, ← pairPass_eq_pairUpSpec, foldBackSpec_eq_fold lt _ hpne]
    rfl

theorem combine_siblings_none_iff {K : Type} (lt : K → K → Bool) (cs : List (Tree K)) :
    combine_siblings lt cs = none ↔ cs = [] := by
  rw [combine_siblings_eq_combineSpec, combineSpec, foldBackSpec_none_iff,
    ← pairPass_eq_pairUpSpec]
  constructor
  · intro h
    by_contra hne
    exact pairPass_ne_nil lt hne h
  · rintro rfl; rfl

theorem combine_siblings_elems {K : Type} (lt : K → K → Bool) {cs : List (Tree K)}
    {t : Tree K} (h : combine_siblings lt cs = some t) : t.elems.Perm (elemsL cs) := by
  rw [combine_siblings_eq_combineSpec, combineSpec, ← pairPass_eq_pairUpSpec] at h
  exact (foldBackSpec_elems lt _ t h).trans (pairPass_elems_perm lt cs)

theorem combine_siblings_heapOrd {K : Type} {lt : K → K → Bool} (hs : SWO lt)
    {cs : List (Tree K)} {t : Tree K} (hord : ∀ c ∈ cs, HeapOrd lt c)
    (h : combine_siblings lt cs = some t) : HeapOrd lt t := by
  rw [combine_siblings_eq_combineSpec, combineSpec, ← pairPass_eq_pairUpSpec] at h
  exact foldBackSpec_heapOrd hs _ t (pairPass_heapOrd hs hord) h

/-! ### Lemmas about `ringRemove` and the cut -/

theorem elemsL_eq_flatten {K : Type} (cs : List (Tree K)) :
    elemsL cs = (cs.map Tree.elems).flatten := by
  induction cs with
  | nil => simp
  | cons c rest ih => simp [ih]

theorem elemsL_perm_of_perm {K : Type} {cs1 cs2 : List (Tree K)} (h : cs1.Perm cs2) :
    (elemsL cs1).Perm (elemsL cs2) := by
  rw [elemsL_eq_flatten, elemsL_eq_flatten]
  exact (h.map Tree.elems).flatten

theorem getLast_cons_dropLast_perm {A : Type} (l : List A) (h : l ≠ []) :
    (l.getLast h :: l.dropLast).Perm l := by
  conv_rhs => rw [← List.dropLast_concat_getLast h]
  exact (List.perm_append_singleton _ _).symm

theorem eraseIdx_cons_perm {A : Type} :
    ∀ (l : List A) (j : Nat) (a : A), l[j]? = some a → (a :: l.eraseIdx j).Perm l := by
  intro l
  induction l with
  | nil => intro j a h; simp at h
  | cons c rest ih =>
    intro j a h
    cases j with
    | zero =>
      simp only [List.getElem?_cons_zero, Option.some.injEq] at h
      subst h
      simp
    | succ j2 =>
      simp only [List.getElem?_cons_succ] at h
      rw [List.eraseIdx_cons_succ]
      exact (List.Perm.swap c a _).trans ((ih j2 a h).cons c)

theorem ringRemove_perm {K : Type} :
    ∀ (cs : List (Tree K)) (j : Nat) (cj : Tree K),
      cs[j]? = some cj → (cj :: ringRemove cs j).Perm cs := by
  intro cs j cj h
  cases j with
  | zero =>
    cases cs with
    | nil => simp at h
    | cons c rest =>
      simp only [List.getElem?_cons_zero, Option.some.injEq] at h
      subst h
      cases rest with
      | nil => simp [ringRemove]
      | cons b l2 =>
        have hne : b :: l2 ≠ [] := List.cons_ne_nil _ _
        rw [show ringRemove (c :: b :: l2) 0 = (b :: l2).getLast hne :: (b :: l2).dropLast by
          rw [ringRemove, List.getLast?_eq_getLast _ hne]]
        exact (getLast_cons_dropLast_perm (b :: l2) hne).cons c
  | succ j2 =>
    rw [ringRemove]
    exact eraseIdx_cons_perm cs (j2 + 1) cj h

/-- In a list of elements with pairwise distinct ids, an id determines
the element. -/
theorem elem_eq_of_nodup_ids {K : Type} {l : List (Element K)}
    (hnd : (l.map Element.id).Nodup) {e1 e2 : Element K}
    (h1 : e1 ∈ l) (h2 : e2 ∈ l) (hid : e1.id = e2.id) : e1 = e2 :=
  List.inj_on_of_nodup_map hnd h1 h2 hid

/-- Elementary description of cutting a located node, list level: the
cut subtree has the requested root id and no element is lost or
duplicated. -/
theorem cutCs_spec {K : Type} (tid : Int) :
    ∀ (cs : List (Tree K)),
      (∀ c ∈ cs, ∀ sub rest, cutT tid c = some (sub, rest) →
        sub.rootId = tid ∧ rest.rootId = c.rootId ∧ rest.rootKey = c.rootKey ∧
        (sub.elems ++ rest.elems).Perm c.elems) →
      ∀ sub cs2, cutCs tid cs = some (sub, cs2) →
        sub.rootId = tid ∧ (sub.elems ++ elemsL cs2).Perm (elemsL cs) := by
  intro cs
  induction cs with
  | nil => intro _ sub cs2 h; rw [cutCs] at h; exact absurd h (by simp)
  | cons c rest ih =>
    intro hP sub cs2 h
    rw [cutCs] at h
    split at h
    · -- the head child contains the node
      rename_i s c2 hc
      simp only [Option.some.injEq, Prod.mk.injEq] at h
      obtain ⟨rfl, rfl⟩ := h
      have hPc := hP c (List.mem_cons_self _ _) s c2 hc
      refine ⟨hPc.1, ?_⟩
      simp only [elemsL_cons]
      rw [← List.append_assoc]
      exact hPc.2.2.2.append (List.Perm.refl _)
    · -- the node is in a later sibling
      rename_i hc
      split at h
      · rename_i s2 l2 hr
        simp only [Option.some.injEq, Prod.mk.injEq] at h
        obtain ⟨rfl, rfl⟩ := h
        have ihr := ih (fun c3 hc3 => hP c3 (List.mem_cons_of_mem _ hc3)) s2 l2 hr
        refine ⟨ihr.1, ?_⟩
        simp only [elemsL_cons]
        have h1 : (s2.elems ++ (c.elems ++ elemsL l2)).Perm
            (c.elems ++ (s2.elems ++ elemsL l2)) := by
          rw [← List.append_assoc, ← List.append_assoc]
          exact List.perm_append_comm.append (List.Perm.refl _)
        exact h1.trans (ihr.2.append_left c.elems)
      · exact absurd h (by simp)

/-- Elementary description of cutting a located node: the cut subtree
has the requested root id, the remaining tree keeps its root element,
and no element is lost or duplicated. -/
theorem cutT_spec {K : Type} (tid : Int) :
    ∀ (t : Tree K) (sub rest : Tree K), cutT tid t = some (sub, rest) →
      sub.rootId = tid ∧ rest.rootId = t.rootId ∧ rest.rootKey = t.rootKey ∧
      (sub.elems ++ rest.elems).Perm t.elems := by
  intro t
  induction t using Tree.my_ind with
  | h i k cs ihc =>
    intro sub rest h
    rw [cutT] at h
    split at h
    · -- a direct child has the id
      rename_i j hf
      split at h
      · rename_i cj hj
        simp only [Option.some.injEq, Prod.mk.injEq] at h
        obtain ⟨rfl, rfl⟩ := h
        have hid : cj.rootId = tid := by
          rcases List.findIdx?_eq_some_iff_getElem.mp hf with ⟨hlt, hp, _⟩
          rcases List.getElem?_eq_some_iff.mp hj with ⟨hlt2, hget⟩
          rw [← hget]
          exact by simpa using hp
        refine ⟨hid, rfl, rfl, ?_⟩
        simp only [elems_node, Tree.rootId, Tree.rootKey]
        have hperm := elemsL_perm_of_perm (ringRemove_perm cs j cj hj)
        rw [elemsL_cons] at hperm
        exact List.perm_middle.trans (hperm.cons _)
      · exact absurd h (by simp)
    · -- recurse into the children
      rename_i hf
      split at h
      · rename_i s cs2 hcs
        simp only [Option.some.injEq, Prod.mk.injEq] at h
        obtain ⟨rfl, rfl⟩ := h
        have hq := cutCs_spec tid cs ihc s cs2 hcs
        refine ⟨hq.1, rfl, rfl, ?_⟩
        simp only [elems_node, Tree.rootId, Tree.rootKey]
        exact List.perm_middle.trans (hq.2.cons _)
      · exact absurd h (by simp)

/-- If the cut search fails over a sibling list, the id occurs strictly
below the root of none of its members. -/
theorem cutCs_none {K : Type} (tid : Int) :
    ∀ (cs : List (Tree K)),
      (∀ c ∈ cs, cutT tid c = none → tid ∉ (elemsL c.children).map Element.id) →
      cutCs tid cs = none →
      ∀ c ∈ cs, tid ∉ (elemsL c.children).map Element.id := by
  intro cs
  induction cs with
  | nil => intro _ _ c hc; cases hc
  | cons c rest ih =>
    intro hA h
    rw [cutCs] at h
    split at h
    · exact absurd h (by simp)
    · rename_i hc
      split at h
      · exact absurd h (by simp)
      · rename_i hr
        intro c3 hc3
        rcases List.mem_cons.mp hc3 with rfl | hc3
        · exact hA c3 (List.mem_cons_self _ _) hc
        · exact ih (fun c4 hc4 => hA c4 (List.mem_cons_of_mem _ hc4)) hr c3 hc3

/-- If the cut search fails, the id does not occur strictly below the
root of the searched subtree. -/
theorem cutT_none {K : Type} (tid : Int) :
    ∀ (t : Tree K), cutT tid t = none →
      tid ∉ (elemsL t.children).map Element.id := by
  intro t
  induction t using Tree.my_ind with
  | h i k cs ihc =>
    intro h hmem
    rw [cutT] at h
    split at h
    · -- findIdx? found a direct child: then cs[j]? cannot be none
      rename_i j hf
      split at h
      · exact absurd h (by simp)
      · rename_i hj
        rcases List.findIdx?_eq_some_iff_getElem.mp hf with ⟨hlt, _, _⟩
        rw [List.getElem?_eq_getElem hlt] at hj
        exact absurd hj (by simp)
    · rename_i hf
      split at h
      · exact absurd h (by simp)
      · rename_i hcs
        have hnone := cutCs_none tid cs ihc hcs
        have hroot : ∀ c ∈ cs, c.rootId ≠ tid := by
          intro c hc
          have := List.findIdx?_eq_none_iff.mp hf c hc
          simpa using this
        simp only [Tree.children, List.mem_map] at hmem
        rcases hmem with ⟨e, he, heid⟩
        rcases mem_elemsL.mp he with ⟨c, hcmem, hec⟩
        rw [elems_eq_cons] at hec
        rcases List.mem_cons.mp hec with rfl | hec
        · exact hroot c hcmem heid
        · refine hnone c hcmem ?_
          exact List.mem_map.mpr ⟨e, hec, heid⟩

/-- Heap order survives the cut on both sides (list level). -/
theorem cutCs_heapOrd {K : Type} {lt : K → K → Bool} (tid : Int) :
    ∀ (cs : List (Tree K)),
      (∀ c ∈ cs, HeapOrd lt c → ∀ sub rest, cutT tid c = some (sub, rest) →
        HeapOrd lt sub ∧ HeapOrd lt rest) →
      (∀ c ∈ cs, HeapOrd lt c) →
      ∀ sub cs2, cutCs tid cs = some (sub, cs2) →
        HeapOrd lt sub ∧ (∀ c2 ∈ cs2, HeapOrd lt c2) ∧
        (∀ e ∈ elemsL cs2, e ∈ elemsL cs) := by
  intro cs
  induction cs with
  | nil => intro _ _ sub cs2 h; rw [cutCs] at h; exact absurd h (by simp)
  | cons c rest ih =>
    intro hP hord sub cs2 h
    rw [cutCs] at h
    split at h
    · rename_i s c2 hc
      simp only [Option.some.injEq, Prod.mk.injEq] at h
      obtain ⟨rfl, rfl⟩ := h
      have hPc := hP c (List.mem_cons_self _ _) (hord c (List.mem_cons_self _ _)) s c2 hc
      have helems := (cutT_spec tid c s c2 hc).2.2.2
      refine ⟨hPc.1, ?_, ?_⟩
      · intro c3 hc3
        rcases List.mem_cons.mp hc3 with rfl | hc3
        · exact hPc.2
        · exact hord c3 (List.mem_cons_of_mem _ hc3)
      · intro e he
        rw [elemsL_cons] at he ⊢
        rcases List.mem_append.mp he with he | he
        · have : e ∈ s.elems ++ c2.elems := List.mem_append.mpr (Or.inr he)
          exact List.mem_append.mpr (Or.inl (helems.subset this))
        · exact List.mem_append.mpr (Or.inr he)
    · rename_i hc
      split at h
      · rename_i s2 l2 hr
        simp only [Option.some.injEq, Prod.mk.injEq] at h
        obtain ⟨rfl, rfl⟩ := h
        have ihr := ih (fun c3 hc3 => hP c3 (List.mem_cons_of_mem _ hc3))
          (fun c3 hc3 => hord c3 (List.mem_cons_of_mem _ hc3)) s2 l2 hr
        refine ⟨ihr.1, ?_, ?_⟩
        · intro c3 hc3
          rcases List.mem_cons.mp hc3 with rfl | hc3
          · exact hord c3 (List.mem_cons_self _ _)
          · exact ihr.2.1 c3 hc3
        · intro e he
          rw [elemsL_cons] at he ⊢
          rcases List.mem_append.mp he with he | he
          · exact List.mem_append.mpr (Or.inl he)
          · exact List.mem_append.mpr (Or.inr (ihr.2.2 e he))
      · exact absurd h (by simp)

/-- Heap order survives the cut on both sides. -/
theorem cutT_heapOrd {K : Type} {lt : K → K → Bool} (tid : Int) :
    ∀ (t : Tree K), HeapOrd lt t → ∀ sub rest, cutT tid t = some (sub, rest) →
      HeapOrd lt sub ∧ HeapOrd lt rest := by
  intro t
  induction t using Tree.my_ind with
  | h i k cs ihc =>
    intro hord sub rest h
    cases hord with
    | node hsub hle =>
      rw [cutT] at h
      split at h
      · rename_i j hf
        split at h
        · rename_i cj hj
          simp only [Option.some.injEq, Prod.mk.injEq] at h
          obtain ⟨rfl, rfl⟩ := h
          have hmem : ∀ c2 ∈ ringRemove cs j, c2 ∈ cs := by
            intro c2 hc2
            exact (ringRemove_perm cs j cj hj).subset (List.mem_cons_of_mem _ hc2)
          have hsubmem : cj ∈ cs := by
            rcases List.getElem?_eq_some_iff.mp hj with ⟨hlt2, hget⟩
            rw [← hget]
            exact List.getElem_mem _
          refine ⟨hsub cj hsubmem, HeapOrd.node ?_ ?_⟩
          · intro c2 hc2; exact hsub c2 (hmem c2 hc2)
          · intro c2 hc2 e he; exact hle c2 (hmem c2 hc2) e he
        · exact absurd h (by simp)
      · rename_i hf
        split at h
        · rename_i s cs2 hcs
          simp only [Option.some.injEq, Prod.mk.injEq] at h
          obtain ⟨rfl, rfl⟩ := h
          have hq := cutCs_heapOrd tid cs (fun c hc hco => ihc c hc hco) hsub s cs2 hcs
          refine ⟨hq.1, HeapOrd.node hq.2.1 ?_⟩
          intro c2 hc2 e he
          have hmem2 : e ∈ elemsL cs := hq.2.2 e (mem_elemsL.mpr ⟨c2, hc2, he⟩)
          rcases mem_elemsL.mp hmem2 with ⟨c, hc, hec⟩
          exact hle c hc e hec
        · exact absurd h (by simp)

/-! ### Heap-level helper lemmas -/

theorem rootElems_none {K : Type} {h : Heap K} (hr : h.root = none) : rootElems h = [] := by
  rw [rootElems, hr]; rfl

theorem rootElems_some {K : Type} {h : Heap K} {r : Tree K} (hr : h.root = some r) :
    rootElems h = r.elems := by
  rw [rootElems, hr]; rfl

theorem WF.root_none_iff {K : Type} {lt : K → K → Bool} {h : Heap K} (hwf : WF lt h) :
    h.root = none ↔ h.sz = 0 := by
  constructor
  · intro hr
    rw [hwf.size_eq, rootElems_none hr]
    rfl
  · intro hsz
    rcases hr : h.root with _ | r
    · rfl
    · rw [hwf.size_eq, rootElems_some hr] at hsz
      exact absurd (List.length_eq_zero.mp hsz) (elems_ne_nil r)

theorem ensure_existing_bad {K : Type} {h : Heap K} {id : Int}
    (hbad : id < 0 ∨ h.maxsz ≤ id) : h.ensure_existing id = .error .BAD_ID := by
  simp [Heap.ensure_existing, hbad]

theorem ensure_existing_dead {K : Type} {h : Heap K} {id : Int}
    (hok : ¬(id < 0 ∨ h.maxsz ≤ id)) (hpos : h.pos id = false) :
    h.ensure_existing id = .error .NO_SUCH_ELEMENT := by
  simp [Heap.ensure_existing, hok, hpos]

theorem ensure_existing_live {K : Type} {h : Heap K} {id : Int}
    (hok : ¬(id < 0 ∨ h.maxsz ≤ id)) (hpos : h.pos id = true) :
    h.ensure_existing id = .ok () := by
  simp [Heap.ensure_existing, hok, hpos]

theorem get_key_err_bad {K : Type} {h : Heap K} {id : Int}
    (hbad : id < 0 ∨ h.maxsz ≤ id) : h.get_key id = .error .BAD_ID := by
  rw [Heap.get_key, ensure_existing_bad hbad]

theorem get_key_err_dead {K : Type} {h : Heap K} {id : Int}
    (hok : ¬(id < 0 ∨ h.maxsz ≤ id)) (hpos : h.pos id = false) :
    h.get_key id = .error .NO_SUCH_ELEMENT := by
  rw [Heap.get_key, ensure_existing_dead hok hpos]

/-- A live id is found in the tree and `get_key` returns its (unique)
key. -/
theorem get_key_ok {K : Type} {lt : K → K → Bool} {h : Heap K} (hwf : WF lt h) {id : Int}
    (hpos : h.pos id = true) :
    ∃ e : Element K, e ∈ rootElems h ∧ e.id = id ∧ h.get_key id = .ok e.key ∧
      ∀ e2 ∈ rootElems h, e2.id = id → e2 = e := by
  have hrange := hwf.pos_range id hpos
  have hmem : id ∈ (rootElems h).map Element.id := (hwf.pos_iff id).mp hpos
  rcases List.mem_map.mp hmem with ⟨e1, he1, hid1⟩
  rcases hr : h.root with _ | r
  · rw [rootElems_none hr] at he1; cases he1
  · rw [rootElems_some hr] at he1
    have hfind : (r.elems.find? (fun e => e.id == id)).isSome := by
      rw [List.find?_isSome]
      exact ⟨e1, he1, by simp [hid1]⟩
    rcases hfs : r.elems.find? (fun e => e.id == id) with _ | e0
    · rw [hfs] at hfind; cases hfind
    · have he0mem : e0 ∈ r.elems := List.mem_of_find?_eq_some hfs
      have he0id : e0.id = id := by simpa using List.find?_some hfs
      have huniq : ∀ e2 ∈ rootElems h, e2.id = id → e2 = e0 := by
        intro e2 he2 hid2
        rw [rootElems_some hr] at he2
        have hnd := hwf.nodup
        rw [rootElems_some hr] at hnd
        exact elem_eq_of_nodup_ids hnd he2 he0mem (by rw [hid2, he0id])
      refine ⟨e0, by rw [rootElems_some hr]; exact he0mem, he0id, ?_, huniq⟩
      rw [Heap.get_key, ensure_existing_live (by omega) hpos]
      rw [Heap.keyOf, hr]
      simp [hfs]

theorem insert_err_bad {K : Type} (lt : K → K → Bool) {h : Heap K} {id : Int} (k : K)
    (hbad : id < 0 ∨ h.maxsz ≤ id) : h.insert lt id k = .error .BAD_ID := by
  simp [Heap.insert, Heap.ensure_not_existing, hbad]

theorem insert_err_dup {K : Type} (lt : K → K → Bool) {h : Heap K} {id : Int} (k : K)
    (hok : ¬(id < 0 ∨ h.maxsz ≤ id)) (hpos : h.pos id = true) :
    h.insert lt id k = .error .ALREADY_EXISTS := by
  simp [Heap.insert, Heap.ensure_not_existing, hok, hpos]

/-- A valid insert succeeds and adds exactly the new element. -/
theorem insert_spec {K : Type} {lt : K → K → Bool} (hs : SWO lt) {h : Heap K}
    (hwf : WF lt h) (id : Int) (k : K) (hlo : 0 ≤ id) (hhi : id < h.maxsz)
    (hpos : h.pos id = false) :
    ∃ h2, h.insert lt id k = .ok h2 ∧ WF lt h2 ∧
      (rootElems h2).Perm (⟨id, k⟩ :: rootElems h) ∧
      h2.sz = h.sz + 1 ∧ h2.maxsz = h.maxsz ∧
      h2.pos = (fun j => if j = id then true else h.pos j) := by
  have hok : ¬(id < 0 ∨ h.maxsz ≤ id) := by omega
  have hnotex : h.ensure_not_existing id = .ok () := by
    simp [Heap.ensure_not_existing, hok, hpos]
  rw [Heap.insert, hnotex]
  refine ⟨_, rfl, ?_, ?_, rfl, rfl, rfl⟩
  case refine_2 =>
    -- the element permutation
    rcases hr : h.root with _ | r
    · rw [rootElems_none hr]
      exact List.Perm.refl _
    · rw [rootElems_some hr]
      have hme := merge_elems_perm lt r (.node id k [])
      simp only [elems_node, elemsL_nil] at hme
      exact hme.trans (List.perm_append_singleton _ _)
  case refine_1 =>
    have hperm : (rootElems { h with
        pos := fun j => if j = id then true else h.pos j,
        root := some (match h.root with
                      | some r => merge lt r (.node id k [])
                      | none => .node id k []),
        sz := h.sz + 1 }).Perm (⟨id, k⟩ :: rootElems h) := by
      rcases hr : h.root with _ | r
      · rw [rootElems_none hr]
        exact List.Perm.refl _
      · rw [rootElems_some hr]
        have hme := merge_elems_perm lt r (.node id k [])
        simp only [elems_node, elemsL_nil] at hme
        exact hme.trans (List.perm_append_singleton _ _)
    have hidnotin : id ∉ (rootElems h).map Element.id := by
      intro hmem
      rw [← hwf.pos_iff id] at hmem
      rw [hpos] at hmem
      cases hmem
    have hidperm := hperm.map Element.id
    constructor
    · -- heap order
      intro r2 hr2
      simp only at hr2
      rcases hr : h.root with _ | r
      · rw [hr] at hr2
        simp only [Option.some.injEq] at hr2
        subst hr2
        exact HeapOrd.node (by intro c hc; cases hc) (by intro c hc; cases hc)
      · rw [hr] at hr2
        simp only [Option.some.injEq] at hr2
        subst hr2
        exact merge_heapOrd hs (hwf.ord r hr)
          (HeapOrd.node (by intro c hc; cases hc) (by intro c hc; cases hc))
    · -- size
      simp only
      rw [hperm.length_eq]
      simp [hwf.size_eq]
    · -- pos table
      intro j
      simp only
      rw [hidperm.mem_iff]
      by_cases hj : j = id
      · subst hj
        simp
      · simp only [if_neg hj, List.map_cons, List.mem_cons]
        rw [hwf.pos_iff j]
        constructor
        · intro hm; exact Or.inr hm
        · rintro (hm | hm)
          · exact absurd hm hj
          · exact hm
    · -- range
      intro j hj
      simp only at hj
      by_cases hjid : j = id
      · subst hjid; exact ⟨hlo, hhi⟩
      · rw [if_neg hjid] at hj
        exact hwf.pos_range j hj
    · -- distinct ids
      rw [hidperm.nodup_iff]
      simp only [List.map_cons, List.nodup_cons]
      exact ⟨hidnotin, hwf.nodup⟩

theorem HeapOrd.childrenOrd {K : Type} {lt : K → K → Bool} {t : Tree K} (h : HeapOrd lt t) :
    ∀ c ∈ t.children, HeapOrd lt c := by
  cases h with
  | node hsub hle => exact hsub

theorem HeapOrd.children_le {K : Type} {lt : K → K → Bool} {t : Tree K} (h : HeapOrd lt t) :
    ∀ c ∈ t.children, ∀ e ∈ c.elems, lt e.key t.rootKey = false := by
  cases h with
  | node hsub hle => exact hle

theorem find_min_err {K : Type} {h : Heap K} (hsz : h.sz = 0) :
    h.find_min = .error .EMPTY := by
  simp [Heap.find_min, Heap.ensure_nonempty, hsz]

theorem find_min_ok {K : Type} {h : Heap K} {r : Tree K} (hr : h.root = some r)
    (hsz : h.sz ≠ 0) : h.find_min = .ok ⟨r.rootId, r.rootKey⟩ := by
  have hne : h.ensure_nonempty = .ok () := by simp [Heap.ensure_nonempty, hsz]
  simp [Heap.find_min, hne, hr]

theorem delete_min_err {K : Type} (lt : K → K → Bool) {h : Heap K} (hsz : h.sz = 0) :
    h.delete_min lt = .error .EMPTY := by
  simp [Heap.delete_min, Heap.ensure_nonempty, hsz]

/-- A `delete_min` on a non-empty well-formed heap returns the root
element — a minimal one — and keeps exactly the other elements. -/
theorem delete_min_spec {K : Type} {lt : K → K → Bool} (hs : SWO lt) {h : Heap K}
    (hwf : WF lt h) (hsz : h.sz ≠ 0) :
    ∃ r h2, h.root = some r ∧
      h.delete_min lt = .ok (⟨r.rootId, r.rootKey⟩, h2) ∧ WF lt h2 ∧
      (rootElems h2).Perm (elemsL r.children) ∧
      h2.sz = h.sz - 1 ∧ h2.maxsz = h.maxsz ∧
      (∀ e ∈ rootElems h, lt e.key r.rootKey = false) ∧
      h2.pos = (fun j => if j = r.rootId then false else h.pos j) := by
  rcases hr : h.root with _ | r
  · exact absurd (hwf.root_none_iff.mp hr) hsz
  have hne : h.ensure_nonempty = .ok () := by simp [Heap.ensure_nonempty, hsz]
  have hdm : h.delete_min lt = .ok (⟨r.rootId, r.rootKey⟩,
      { h with pos := fun j => if j = r.rootId then false else h.pos j,
               sz := h.sz - 1,
               root := combine_siblings lt r.children }) := by
    simp [Heap.delete_min, hne, hr]
  have hordr := hwf.ord r hr
  have hperm : (rootElems { h with
      pos := fun j => if j = r.rootId then false else h.pos j,
      sz := h.sz - 1,
      root := combine_siblings lt r.children }).Perm (elemsL r.children) := by
    rcases hcomb : combine_siblings lt r.children with _ | t
    · have hcs : r.children = [] := (combine_siblings_none_iff lt _).mp hcomb
      rw [rootElems_none rfl, hcs]
      exact List.Perm.refl _
    · rw [rootElems_some rfl]
      exact combine_siblings_elems lt hcomb
  have hlen : h.sz = 1 + (elemsL r.children).length := by
    rw [hwf.size_eq, rootElems_some hr, elems_eq_cons r]
    simp [Nat.add_comm]
  have hids : (rootElems h).map Element.id = r.rootId :: (elemsL r.children).map Element.id := by
    rw [rootElems_some hr, elems_eq_cons r]
    rfl
  have hnd := hwf.nodup
  rw [hids] at hnd
  have hndtail := (List.nodup_cons.mp hnd).2
  have hrootnotin := (List.nodup_cons.mp hnd).1
  have hidperm := hperm.map Element.id
  refine ⟨r, _, rfl, hdm, ?_, hperm, rfl, rfl, ?_, rfl⟩
  · constructor
    · -- heap order of the combined children
      intro r2 hr2
      simp only at hr2
      exact combine_siblings_heapOrd hs hordr.childrenOrd hr2
    · -- size bookkeeping
      simp only
      rw [hperm.length_eq]
      omega
    · -- pos table synchronisation
      intro j
      simp only
      rw [hidperm.mem_iff]
      by_cases hj : j = r.rootId
      · rw [if_pos hj]
        simp only [Bool.false_eq_true, false_iff]
        rw [hj]
        exact hrootnotin
      · rw [if_neg hj, hwf.pos_iff j, hids, List.mem_cons]
        constructor
        · rintro (hm | hm)
          · exact absurd hm hj
          · exact hm
        · intro hm; exact Or.inr hm
    · -- range
      intro j hj
      simp only at hj
      by_cases hjr : j = r.rootId
      · rw [if_pos hjr] at hj; cases hj
      · rw [if_neg hjr] at hj
        exact hwf.pos_range j hj
    · -- distinct ids
      rw [hidperm.nodup_iff]
      exact hndtail
  · -- minimality of the root key
    intro e he
    rw [rootElems_some hr] at he
    exact hordr.le_root hs e he

theorem decrease_key_err {K : Type} (lt : K → K → Bool) {h : Heap K} {id : Int}
    (newkey : K) {e : PHError} (herr : h.get_key id = .error e) :
    h.decrease_key lt id newkey = .error e := by
  simp [Heap.decrease_key, herr]

theorem decrease_key_noop {K : Type} (lt : K → K → Bool) {h : Heap K} {id : Int}
    {newkey cur : K} (hget : h.get_key id = .ok cur) (hgt : lt cur newkey = true) :
    h.decrease_key lt id newkey = .ok h := by
  simp [Heap.decrease_key, hget, hgt]

/-- An applicable `decrease_key` on a well-formed heap succeeds,
replaces exactly the key of the addressed element, and — when the new
key is ordered no later than the root key — leaves the addressed node
as the new root. -/
theorem decrease_key_spec {K : Type} [DecidableEq K] {lt : K → K → Bool} (hs : SWO lt)
    {h : Heap K} (hwf : WF lt h) {id : Int} {newkey : K} (hpos : h.pos id = true)
    {e0 : Element K} (he0 : e0 ∈ rootElems h) (hid : e0.id = id)
    (hguard : lt e0.key newkey = false) :
    ∃ h2, h.decrease_key lt id newkey = .ok h2 ∧ WF lt h2 ∧
      (rootElems h2).Perm (⟨id, newkey⟩ :: (rootElems h).erase e0) ∧
      h2.sz = h.sz ∧ h2.maxsz = h.maxsz ∧ h2.pos = h.pos ∧
      (∀ r, h.root = some r → lt r.rootKey newkey = false →
        ∃ r2, h2.root = some r2 ∧ r2.rootId = id ∧ r2.rootKey = newkey) := by
  obtain ⟨e1, he1, hid1, hget1, huniq⟩ := get_key_ok hwf hpos
  have he01 : e0 = e1 := huniq e0 he0 hid
  subst he01
  rcases hr : h.root with _ | r
  · rw [rootElems_none hr] at he0; cases he0
  have hordr := hwf.ord r hr
  have hrelems : rootElems h = r.elems := rootElems_some hr
  have hlenold : 0 < (rootElems h).length := List.length_pos.mpr (by
    intro hnil
    rw [hnil] at he0
    cases he0)
  by_cases hroot_id : r.rootId = id
  · -- the addressed node is the root: update the key in place
    have he0root : e0 = ⟨r.rootId, r.rootKey⟩ := by
      refine (huniq ⟨r.rootId, r.rootKey⟩ ?_ hroot_id).symm
      rw [hrelems]
      exact self_mem_elems r
    have hdk : h.decrease_key lt id newkey =
        .ok { h with root := some (.node r.rootId newkey r.children) } := by
      simp [Heap.decrease_key, hget1, hguard, hr, hroot_id]
    have hids2 : (rootElems { h with root := some (.node r.rootId newkey r.children) }).map
        Element.id = (rootElems h).map Element.id := by
      rw [rootElems_some rfl, hrelems, elems_eq_cons r]
      rfl
    have hlens : (rootElems { h with root := some (.node r.rootId newkey r.children) }).length
        = (rootElems h).length := by
      rw [rootElems_some rfl, hrelems, elems_eq_cons r]
      rfl
    refine ⟨_, hdk, ?_, ?_, rfl, rfl, rfl, ?_⟩
    · constructor
      · intro r2 hr2
        simp only [Option.some.injEq] at hr2
        subst hr2
        refine HeapOrd.node hordr.childrenOrd ?_
        intro c hc e he
        have h1 := hordr.children_le c hc e he
        have h2 : lt r.rootKey newkey = false := by
          have h3 := hguard
          rw [he0root] at h3
          exact h3
        exact hs.le_trans _ _ _ h2 h1
      · rw [hlens]
        exact hwf.size_eq
      · intro j
        rw [hids2]
        exact hwf.pos_iff j
      · exact hwf.pos_range
      · rw [hids2]
        exact hwf.nodup
    · -- element bookkeeping
      show (Tree.node r.rootId newkey r.children).elems.Perm
        (⟨id, newkey⟩ :: (rootElems h).erase e0)
      rw [hrelems, elems_eq_cons r, he0root, List.erase_cons_head]
      rw [elems_node, ← hroot_id]
    · -- the node is the root afterwards
      intro r3 _ _
      exact ⟨_, rfl, hroot_id, rfl⟩
  · -- the addressed node is a proper descendant: cut and re-merge
    have he0deep : e0 ∈ elemsL r.children := by
      rw [hrelems, elems_eq_cons r] at he0
      rcases List.mem_cons.mp he0 with heq | hmm
      · exact absurd (by rw [heq] at hid; exact hid) hroot_id
      · exact hmm
    have hcut_ne : cutT id r ≠ none := by
      intro hnone
      refine cutT_none id r hnone ?_
      exact List.mem_map.mpr ⟨e0, he0deep, hid⟩
    rcases hcut : cutT id r with _ | ⟨sub, rest⟩
    · exact absurd hcut hcut_ne
    obtain ⟨hsubid, hrestid, hrestkey, hcperm⟩ := cutT_spec id r sub rest hcut
    obtain ⟨hordsub, hordrest⟩ := cutT_heapOrd id r hordr sub rest hcut
    have hsubelem : (⟨id, sub.rootKey⟩ : Element K) ∈ rootElems h := by
      rw [hrelems]
      refine hcperm.subset ?_
      refine List.mem_append.mpr (Or.inl ?_)
      have h4 := self_mem_elems sub
      rw [hsubid] at h4
      exact h4
    have hsube0 : (⟨id, sub.rootKey⟩ : Element K) = e0 := huniq _ hsubelem rfl
    have hsubkey : sub.rootKey = e0.key := by
      rw [← hsube0]
    have hdk : h.decrease_key lt id newkey =
        .ok { h with root := some (merge lt (.node sub.rootId newkey sub.children) rest) } := by
      simp [Heap.decrease_key, hget1, hguard, hr, hroot_id, hcut]
    have hordp : HeapOrd lt (.node sub.rootId newkey sub.children) := by
      refine HeapOrd.node hordsub.childrenOrd ?_
      intro c hc e he
      have h1 := hordsub.children_le c hc e he
      have h2 : lt sub.rootKey newkey = false := by rw [hsubkey]; exact hguard
      exact hs.le_trans _ _ _ h2 h1
    have hsubelems : sub.elems = e0 :: elemsL sub.children := by
      rw [elems_eq_cons sub, hsubid, hsube0]
    have hperm : (rootElems { h with
        root := some (merge lt (.node sub.rootId newkey sub.children) rest) }).Perm
        (⟨id, newkey⟩ :: (rootElems h).erase e0) := by
      rw [rootElems_some rfl]
      have hm := merge_elems_perm lt (.node sub.rootId newkey sub.children) rest
      rw [elems_node] at hm
      have htail : (elemsL sub.children ++ rest.elems).Perm ((rootElems h).erase e0) := by
        have h1 : r.elems.Perm (e0 :: (elemsL sub.children ++ rest.elems)) := by
          refine hcperm.symm.trans ?_
          rw [hsubelems]
          exact List.Perm.refl _
        have h2 := h1.erase e0
        rw [List.erase_cons_head] at h2
        rw [hrelems]
        exact h2.symm
      have h5 : (⟨sub.rootId, newkey⟩ : Element K) = ⟨id, newkey⟩ := by rw [hsubid]
      rw [h5] at hm
      exact hm.trans (htail.cons _)
    have hidperm := hperm.map Element.id
    have hperm0 : (rootElems h).Perm (e0 :: (rootElems h).erase e0) :=
      List.perm_cons_erase he0
    have hiids : ((rootElems { h with
        root := some (merge lt (.node sub.rootId newkey sub.children) rest) }).map
          Element.id).Perm ((rootElems h).map Element.id) := by
      refine hidperm.trans ?_
      simpa [hid] using (hperm0.map Element.id).symm
    have hlens : (rootElems { h with
        root := some (merge lt (.node sub.rootId newkey sub.children) rest) }).length
        = (rootElems h).length := by
      rw [hperm.length_eq]
      simp only [List.length_cons]
      rw [List.length_erase_of_mem he0]
      omega
    refine ⟨_, hdk, ?_, hperm, rfl, rfl, rfl, ?_⟩
    · constructor
      · intro r2 hr2
        simp only [Option.some.injEq] at hr2
        subst hr2
        exact merge_heapOrd hs hordp hordrest
      · rw [hlens]
        exact hwf.size_eq
      · intro j
        rw [hiids.mem_iff]
        exact hwf.pos_iff j
      · exact hwf.pos_range
      · rw [hiids.nodup_iff]
        exact hwf.nodup
    · -- promotion to the root on a tie with the root key
      intro r3 hr3 hle
      simp only [Option.some.injEq] at hr3
      subst hr3
      have hnolt : lt rest.rootKey (Tree.rootKey (.node sub.rootId newkey sub.children))
          = false := by
        rw [hrestkey]
        exact hle
      have hmg := merge_of_not_lt hnolt
      refine ⟨_, by rw [hmg], ?_, ?_⟩
      · exact hsubid
      · rfl

theorem remove_err {K : Type} (lt : K → K → Bool) {h : Heap K} {id : Int} {e : PHError}
    (herr : h.ensure_existing id = .error e) : h.remove lt id = .error e := by
  simp [Heap.remove, herr]

/-- `remove` on a live id of a well-formed heap: it succeeds, the
returned element carries the requested id together with the key of the
current root (`decrease_key(id, root->elem.key)` overwrote the node's
key before `delete_min` read it back), the addressed element disappears,
all other elements are untouched, and the size drops by one. -/
theorem remove_spec {K : Type} [DecidableEq K] {lt : K → K → Bool} (hs : SWO lt)
    {h : Heap K} (hwf : WF lt h) {id : Int} (hpos : h.pos id = true)
    {e0 : Element K} (he0 : e0 ∈ rootElems h) (hid : e0.id = id) :
    ∃ r h2, h.root = some r ∧ h.remove lt id = .ok (⟨id, r.rootKey⟩, h2) ∧ WF lt h2 ∧
      (rootElems h2).Perm ((rootElems h).erase e0) ∧
      h2.sz = h.sz - 1 ∧ h2.maxsz = h.maxsz := by
  have hrange := hwf.pos_range id hpos
  have hok : ¬(id < 0 ∨ h.maxsz ≤ id) := by omega
  have hens : h.ensure_existing id = .ok () := ensure_existing_live hok hpos
  rcases hr : h.root with _ | r
  · rw [rootElems_none hr] at he0; cases he0
  have hordr := hwf.ord r hr
  have hguard : lt e0.key r.rootKey = false := by
    refine hordr.le_root hs e0 ?_
    rw [← rootElems_some hr]
    exact he0
  obtain ⟨h2, hdk, hwf2, hperm2, hsz2, hmax2, hpos2, hpromote⟩ :=
    decrease_key_spec hs hwf hpos he0 hid hguard
  obtain ⟨r2, hroot2, hr2id, hr2key⟩ := hpromote r hr (hs.irrefl _)
  have hsz2ne : h2.sz ≠ 0 := by
    rw [hsz2, hwf.size_eq]
    intro hc
    rw [List.length_eq_zero.mp hc] at he0
    cases he0
  obtain ⟨r3, h3, hroot3, hdm, hwf3, hperm3, hsz3, hmax3, _, _⟩ :=
    delete_min_spec hs hwf2 hsz2ne
  have hr23 : r3 = r2 := by
    rw [hroot2] at hroot3
    exact (Option.some.inj hroot3).symm
  subst hr23
  have hrm : h.remove lt id = h2.delete_min lt := by
    simp [Heap.remove, hens, hr, hdk]
  rw [hdm] at hrm
  have helem : (⟨r3.rootId, r3.rootKey⟩ : Element K) = ⟨id, r.rootKey⟩ := by
    rw [hr2id, hr2key]
  rw [helem] at hrm
  refine ⟨r, h3, rfl, hrm, hwf3, ?_, ?_, ?_⟩
  · -- elements: everything except the removed element survives
    have hr2elems : rootElems h2 = ⟨id, r.rootKey⟩ :: elemsL r3.children := by
      rw [rootElems_some hroot2, elems_eq_cons r3, hr2id, hr2key]
    rw [hr2elems] at hperm2
    have htail := hperm2.cons_inv
    exact hperm3.trans htail
  · omega
  · omega

theorem WF_empty {K : Type} (lt : K → K → Bool) (max_size : Int) :
    WF lt (Heap.empty K max_size) := by
  constructor
  · intro r hr
    cases hr
  · rfl
  · intro id
    simp [Heap.empty, rootElems]
  · intro id hid
    cases hid
  · simp [Heap.empty, rootElems]

/-- Every public operation preserves well-formedness (failing calls
leave the state untouched). -/
theorem runOp_WF {K : Type} [DecidableEq K] {lt : K → K → Bool} (hs : SWO lt)
    {h : Heap K} (hwf : WF lt h) (o : Op K) : WF lt (runOp lt h o).1 := by
  cases o with
  | opInsert id k =>
    by_cases hbad : id < 0 ∨ h.maxsz ≤ id
    · simp only [runOp, insert_err_bad lt k hbad]
      exact hwf
    · by_cases hp : h.pos id = true
      · simp only [runOp, insert_err_dup lt k hbad hp]
        exact hwf
      · obtain ⟨h2, hins, hwf2, _⟩ :=
          insert_spec hs hwf id k (by omega) (by omega) (by simpa using hp)
        simp only [runOp, hins]
        exact hwf2
  | opFindMin =>
    cases hfm : h.find_min <;> simp only [runOp, hfm] <;> exact hwf
  | opDeleteMin =>
    by_cases hsz : h.sz = 0
    · simp only [runOp, delete_min_err lt hsz]
      exact hwf
    · obtain ⟨r, h2, hr, hdm, hwf2, _⟩ := delete_min_spec hs hwf hsz
      simp only [runOp, hdm]
      exact hwf2
  | opRemove id =>
    by_cases hbad : id < 0 ∨ h.maxsz ≤ id
    · simp only [runOp, remove_err lt (ensure_existing_bad hbad)]
      exact hwf
    · by_cases hp : h.pos id = true
      · have hmem := (hwf.pos_iff id).mp hp
        rcases List.mem_map.mp hmem with ⟨e0, he0, hid⟩
        obtain ⟨r, h2, hr, hrm, hwf2, _⟩ := remove_spec hs hwf hp he0 hid
        simp only [runOp, hrm]
        exact hwf2
      · simp only [runOp,
          remove_err lt (ensure_existing_dead hbad (by simpa using hp))]
        exact hwf
  | opDecreaseKey id k =>
    by_cases hbad : id < 0 ∨ h.maxsz ≤ id
    · simp only [runOp, decrease_key_err lt k (get_key_err_bad hbad)]
      exact hwf
    · by_cases hp : h.pos id = true
      · obtain ⟨e0, he0, hid, hget, _⟩ := get_key_ok hwf hp
        by_cases hguard : lt e0.key k = true
        · simp only [runOp, decrease_key_noop lt hget hguard]
          exact hwf
        · obtain ⟨h2, hdk, hwf2, _⟩ :=
            decrease_key_spec hs hwf hp he0 hid (by simpa using hguard)
          simp only [runOp, hdk]
          exact hwf2
      · simp only [runOp,
          decrease_key_err lt k (get_key_err_dead hbad (by simpa using hp))]
        exact hwf
  | opGetKey id =>
    cases hgk : h.get_key id <;> simp only [runOp, hgk] <;> exact hwf

/-- Well-formedness is an invariant of all reachable states. -/
theorem Reachable_WF {K : Type} [DecidableEq K] {lt : K → K → Bool} (hs : SWO lt)
    {h : Heap K} (hreach : Reachable lt h) : WF lt h := by
  induction hreach with
  | empty m => exact WF_empty lt m
  | step o _ ih => exact runOp_WF hs ih o

/-! ### Repeated `delete_min` and sequential insertion -/

/-- Exhaustive extraction from a well-formed heap: the sequence of
returned elements is a permutation of the heap contents and its keys are
sorted according to the comparator. -/
theorem extractN_spec {K : Type} {lt : K → K → Bool} (hs : SWO lt) :
    ∀ (n : Nat) (h : Heap K), WF lt h → h.sz ≤ n →
      (extractN lt n h).Perm (rootElems h) ∧
      ((extractN lt n h).map Element.key).Pairwise (fun a b => lt b a = false) := by
  intro n
  induction n with
  | zero =>
    intro h hwf hle
    have hsz : h.sz = 0 := Nat.le_zero.mp hle
    have hroot : h.root = none := hwf.root_none_iff.mpr hsz
    rw [extractN, rootElems_none hroot]
    exact ⟨List.Perm.nil, List.Pairwise.nil⟩
  | succ m ih =>
    intro h hwf hle
    by_cases hsz : h.sz = 0
    · have hroot := hwf.root_none_iff.mpr hsz
      simp only [extractN, delete_min_err lt hsz]
      rw [rootElems_none hroot]
      exact ⟨List.Perm.nil, List.Pairwise.nil⟩
    · obtain ⟨r, h2, hr, hdm, hwf2, hperm, hsz2, _, hmin, _⟩ := delete_min_spec hs hwf hsz
      have hle2 : h2.sz ≤ m := by omega
      obtain ⟨ihperm, ihsort⟩ := ih h2 hwf2 hle2
      simp only [extractN, hdm]
      constructor
      · rw [rootElems_some hr, elems_eq_cons r]
        exact (ihperm.trans hperm).cons _
      · rw [List.map_cons]
        refine List.Pairwise.cons ?_ ihsort
        intro b hb
        rcases List.mem_map.mp hb with ⟨e, he, hkey⟩
        have hmem : e ∈ rootElems h := by
          have h1 : e ∈ rootElems h2 := ihperm.subset he
          have h2m : e ∈ elemsL r.children := hperm.subset h1
          rw [rootElems_some hr, elems_eq_cons r]
          exact List.mem_cons_of_mem _ h2m
        rw [← hkey]
        exact hmin e hmem

/-- Inserting a key list under fresh consecutive ids keeps the heap
well-formed and adds exactly those keys. -/
theorem insertSeq_spec {K : Type} {lt : K → K → Bool} (hs : SWO lt) :
    ∀ (ks : List K) (h : Heap K) (start : Int), WF lt h →
      (∀ i ∈ (rootElems h).map Element.id, i < start) →
      0 ≤ start → start + ks.length ≤ h.maxsz →
      WF lt (insertSeq lt h start ks) ∧
      ((rootElems (insertSeq lt h start ks)).map Element.key).Perm
        (ks ++ (rootElems h).map Element.key) ∧
      (∀ i ∈ (rootElems (insertSeq lt h start ks)).map Element.id,
        i < start + ks.length) ∧
      (insertSeq lt h start ks).maxsz = h.maxsz ∧
      (insertSeq lt h start ks).sz = h.sz + ks.length := by
  intro ks
  induction ks with
  | nil =>
    intro h start hwf hids h0 hbound
    rw [insertSeq]
    refine ⟨hwf, by simp, ?_, rfl, rfl⟩
    intro i hi
    have := hids i hi
    simp only [List.length_nil]
    omega
  | cons k ks ih =>
    intro h start hwf hids h0 hbound
    have hlen : ((k :: ks).length : Int) = (ks.length : Int) + 1 := by
      simp
    have hhi : start < h.maxsz := by
      rw [hlen] at hbound
      have hl0 : (0 : Int) ≤ (ks.length : Int) := Int.ofNat_nonneg _
      omega
    have hposf : h.pos start = false := by
      by_contra hc
      have hc2 : h.pos start = true := by simpa using hc
      have := hids start ((hwf.pos_iff start).mp hc2)
      omega
    obtain ⟨h2, hins, hwf2, hperm, hsz2, hmax2, hpos2⟩ :=
      insert_spec hs hwf start k h0 hhi hposf
    rw [insertSeq, hins]
    have hkeys2 : ((rootElems h2).map Element.key).Perm
        (k :: (rootElems h).map Element.key) := by
      have := hperm.map Element.key
      simpa using this
    have hids2 : ∀ i ∈ (rootElems h2).map Element.id, i < start + 1 := by
      intro i hi
      have hi2 := (hperm.map Element.id).mem_iff.mp hi
      simp only [List.map_cons, List.mem_cons] at hi2
      rcases hi2 with rfl | hi2
      · omega
      · have := hids i hi2
        omega
    have h02 : 0 ≤ start + 1 := by omega
    have hbound2 : start + 1 + ks.length ≤ h2.maxsz := by
      rw [hmax2]
      rw [hlen] at hbound
      omega
    obtain ⟨ihwf, ihperm, ihids, ihmax, ihsz⟩ := ih h2 (start + 1) hwf2 hids2 h02 hbound2
    refine ⟨ihwf, ?_, ?_, by rw [ihmax, hmax2], by rw [ihsz, hsz2]; simp; omega⟩
    · refine ihperm.trans ?_
      refine (hkeys2.append_left ks).trans ?_
      exact List.perm_middle
    · intro i hi
      have := ihids i hi
      rw [hlen]
      omega

/-- Insert the keys `ks` under ids `0, …, N-1` into a freshly
constructed heap of capacity `N = ks.length`: the test-harness pattern
for the sortedness property. -/
def buildHeap {K : Type} (lt : K → K → Bool) (ks : List K) : Heap K :=
  insertSeq lt (Heap.empty K (ks.length : Int)) 0 ks

theorem buildHeap_spec {K : Type} {lt : K → K → Bool} (hs : SWO lt) (ks : List K) :
    WF lt (buildHeap lt ks) ∧
    ((rootElems (buildHeap lt ks)).map Element.key).Perm ks ∧
    (buildHeap lt ks).sz = ks.length := by
  have hempty : WF lt (Heap.empty K (ks.length : Int)) := WF_empty lt (ks.length : Int)
  have h0 : (rootElems (Heap.empty K (ks.length : Int))).map Element.id = [] := rfl
  obtain ⟨hwf, hperm, _, _, hsz⟩ := insertSeq_spec hs ks (Heap.empty K (ks.length : Int)) 0
    hempty (by rw [h0]; intro i hi; cases hi) le_rfl
    (by rw [show (Heap.empty K (ks.length : Int)).maxsz = (ks.length : Int) from rfl]; omega)
  refine ⟨hwf, ?_, by rw [buildHeap, hsz]; simp [Heap.empty]⟩
  have h1 : (rootElems (Heap.empty K (ks.length : Int))).map Element.key = [] := rfl
  rw [buildHeap]
  rw [h1, List.append_nil] at hperm
  exact hperm

/-! ### Destruction lemmas -/

theorem destructOrderL_perm {K : Type} :
    ∀ (l : List (Tree K)), (∀ c ∈ l, (destructOrder c).Perm c.elems) →
      (destructOrderL l).Perm (elemsL l) := by
  intro l
  induction l with
  | nil =>
    intro _
    rw [destructOrderL, elemsL_nil]
  | cons c cs ih =>
    intro hP
    rw [destructOrderL, elemsL_cons]
    exact (hP c (List.mem_cons_self _ _)).append
      (ih fun c2 hc2 => hP c2 (List.mem_cons_of_mem _ hc2))

/-- `recursively_destruct` frees exactly the nodes of the subtree, each
exactly once. -/
theorem destructOrder_perm {K : Type} : ∀ t : Tree K, (destructOrder t).Perm t.elems := by
  intro t
  induction t using Tree.my_ind with
  | h i k cs ih =>
    rw [destructOrder, elems_node]
    exact (List.perm_append_singleton _ _).trans ((destructOrderL_perm cs ih).cons _)

theorem chainTree_rootKey : ∀ n : Nat, (chainTree n).rootKey = -(n : Int)
  | 0 => by simp [chainTree, Tree.rootKey]
  | n + 1 => by simp [chainTree, Tree.rootKey]

/-- On a chain of `n+1` nodes the recursive destructor nests `n+1` call
frames deep. -/
theorem destructDepth_chainTree : ∀ n : Nat, destructDepth (chainTree n) = n + 1 := by
  intro n
  induction n with
  | zero => rfl
  | succ m ih =>
    rw [chainTree, destructDepth, destructDepthL, destructDepthL, ih]
    simp only [Nat.max_zero]
    omega

/-- After `n+1` descending-key inserts the heap is exactly the chain
state: size `n+1`, live ids `0 … n`, root `chainTree n`. -/
theorem descHeap_eq (m : Int) : ∀ n : Nat, ((n : Int) + 1 ≤ m) →
    (descHeap m (n + 1)).sz = n + 1 ∧ (descHeap m (n + 1)).maxsz = m ∧
    (∀ i : Int, (descHeap m (n + 1)).pos i = true ↔ 0 ≤ i ∧ i < (n : Int) + 1) ∧
    (descHeap m (n + 1)).root = some (chainTree n) := by
  intro n
  induction n with
  | zero =>
    intro hm
    have hc : ¬(((0 : Nat) : Int) < 0 ∨ (Heap.empty Int m).maxsz ≤ ((0 : Nat) : Int)) := by
      show ¬(((0 : Nat) : Int) < 0 ∨ m ≤ ((0 : Nat) : Int))
      omega
    have hne : (Heap.empty Int m).ensure_not_existing ((0 : Nat) : Int) = .ok () := by
      simp only [Heap.ensure_not_existing, if_neg hc]
      rw [if_neg]
      simp [Heap.empty]
    have hins : (Heap.empty Int m).insert intLt ((0 : Nat) : Int) (-((0 : Nat) : Int)) =
        .ok { sz := 1, maxsz := m,
              pos := fun j => if j = ((0 : Nat) : Int) then true else false,
              root := some (.node ((0 : Nat) : Int) (-((0 : Nat) : Int)) []) } := by
      simp only [Heap.insert, hne]
      simp [Heap.empty]
    have hdesc : descHeap m 1 =
        { sz := 1, maxsz := m,
          pos := fun j => if j = ((0 : Nat) : Int) then true else false,
          root := some (.node ((0 : Nat) : Int) (-((0 : Nat) : Int)) []) } := by
      rw [show descHeap m 1 =
          (match (Heap.empty Int m).insert intLt ((0 : Nat) : Int) (-((0 : Nat) : Int)) with
           | .ok h2 => h2
           | .error _ => descHeap m 0) from rfl, hins]
    rw [hdesc]
    refine ⟨rfl, rfl, ?_, ?_⟩
    · intro i
      show (if i = ((0 : Nat) : Int) then true else false) = true ↔ _
      by_cases hi : i = ((0 : Nat) : Int)
      · rw [if_pos hi]
        subst hi
        simp
    

      · rw [if_neg hi]
        simp only [Bool.false_eq_true, false_iff]
        omega
    · show some (Tree.node ((0 : Nat) : Int) (-((0 : Nat) : Int)) []) = some (chainTree 0)
      rw [chainTree]
      norm_num
  | succ n2 ih =>
    intro hm
    have hm1 : ((n2 : Int)) + 1 ≤ m := by omega
    obtain ⟨hsz, hmax, hpos, hroot⟩ := ih hm1
    have hc : ¬((((n2 + 1 : Nat)) : Int) < 0 ∨
        (descHeap m (n2 + 1)).maxsz ≤ (((n2 + 1 : Nat)) : Int)) := by
      rw [hmax]
      omega
    have hp : (descHeap m (n2 + 1)).pos (((n2 + 1 : Nat)) : Int) = false := by
      by_contra hcc
      have h2 := (hpos _).mp (by simpa using hcc)
      omega
    have hne : (descHeap m (n2 + 1)).ensure_not_existing (((n2 + 1 : Nat)) : Int) = .ok () := by
      simp only [Heap.ensure_not_existing, if_neg hc, hp]
      rw [if_neg]
      simp
    have hltkey : intLt (-(((n2 + 1 : Nat)) : Int)) ((chainTree n2).rootKey) = true := by
      rw [chainTree_rootKey, intLt, decide_eq_true_eq]
      omega
    have hmerge : merge intLt (chainTree n2)
        (.node (((n2 + 1 : Nat)) : Int) (-(((n2 + 1 : Nat)) : Int)) []) = chainTree (n2 + 1) := by
      have h5 := @merge_of_lt Int intLt (chainTree n2)
        (Tree.node (((n2 + 1 : Nat)) : Int) (-(((n2 + 1 : Nat)) : Int)) []) hltkey
      rw [h5, chainTree]
      rfl
    have hins : (descHeap m (n2 + 1)).insert intLt (((n2 + 1 : Nat)) : Int)
        (-(((n2 + 1 : Nat)) : Int)) =
        .ok { sz := (descHeap m (n2 + 1)).sz + 1, maxsz := (descHeap m (n2 + 1)).maxsz,
              pos := fun j => if j = (((n2 + 1 : Nat)) : Int) then true
                              else (descHeap m (n2 + 1)).pos j,
              root := some (chainTree (n2 + 1)) } := by
      simp only [Heap.insert, hne, hroot, hmerge]
    have hdesc : descHeap m (n2 + 1 + 1) =
        { sz := (descHeap m (n2 + 1)).sz + 1, maxsz := (descHeap m (n2 + 1)).maxsz,
          pos := fun j => if j = (((n2 + 1 : Nat)) : Int) then true
                          else (descHeap m (n2 + 1)).pos j,
          root := some (chainTree (n2 + 1)) } := by
      rw [show descHeap m (n2 + 1 + 1) =
          (match (descHeap m (n2 + 1)).insert intLt (((n2 + 1 : Nat)) : Int)
              (-(((n2 + 1 : Nat)) : Int)) with
           | .ok h2 => h2
           | .error _ => descHeap m (n2 + 1)) from rfl, hins]
    rw [hdesc]
    refine ⟨?_, ?_, ?_, rfl⟩
    · show (descHeap m (n2 + 1)).sz + 1 = n2 + 1 + 1
      rw [hsz]
    · show (descHeap m (n2 + 1)).maxsz = m
      rw [hmax]
    · intro i
      show (if i = (((n2 + 1 : Nat)) : Int) then true
            else (descHeap m (n2 + 1)).pos i) = true ↔ _
      by_cases hi : i = (((n2 + 1 : Nat)) : Int)
      · rw [if_pos hi]
        subst hi
        constructor
        · intro _
          constructor
          · omega
          · omega
        · intro _
          rfl
      · rw [if_neg hi, hpos i]
        constructor
        · intro hh
          exact ⟨hh.1, by omega⟩
        · intro hh
          refine ⟨hh.1, ?_⟩
          rcases hh with ⟨h1, h2⟩
          omega

theorem ensure_existing_ok_pos {K : Type} {h : Heap K} {id : Int}
    (hens : h.ensure_existing id = .ok ()) : h.pos id = true := by
  rw [Heap.ensure_existing] at hens
  split at hens
  · cases hens
  · split at hens
    · cases hens
    · rename_i h2
      simpa using h2

theorem get_key_ok_pos {K : Type} {h : Heap K} {id : Int} {cur : K}
    (hget : h.get_key id = .ok cur) : h.pos id = true := by
  rw [Heap.get_key] at hget
  cases hens : h.ensure_existing id with
  | error e =>
    rw [hens] at hget
    simp at hget
  | ok u =>
    cases u
    exact ensure_existing_ok_pos hens

/-! ### Concrete heaps used in the closed evaluations below -/

/-- `PairingHeap(2)` after `insert(0, 1); insert(1, 2)`:
root `(0, 1)` with single child `(1, 2)`. -/
def demoHeap12 : Heap Int :=
  stepOp intLt (stepOp intLt (Heap.empty Int 2) (.opInsert 0 1)) (.opInsert 1 2)

/-- `PairingHeap(2)` after `insert(0, 5); insert(1, 7)`:
root `(0, 5)` with single child `(1, 7)`. -/
def demoHeap57 : Heap Int :=
  stepOp intLt (stepOp intLt (Heap.empty Int 2) (.opInsert 0 5)) (.opInsert 1 7)

/-- `PairingHeap(3)` after `insert(0, 1); insert(1, 2); insert(2, 3)`:
root `(0, 1)` with child ring `[(2, 3), (1, 2)]` in anchor order. -/
def demoHeap123 : Heap Int :=
  stepOp intLt (stepOp intLt (stepOp intLt (Heap.empty Int 3)
    (.opInsert 0 1)) (.opInsert 1 2)) (.opInsert 2 3)

/-! ### The claims -/

/-- C1: the claim states that `remove(id)` returns the removed element
with the key that element had at the moment of the call.  The code
(PairingHeap.h:320-324) instead runs `decrease_key(id, root->elem.key)`,
which overwrites the node's key with the current minimum before
`delete_min` reads it back: on `PairingHeap(2)` holding `(0,1)` and
`(1,2)`, element 1 has key 2 (`get_key` returns 2), yet `remove(1)`
returns the element `(1, 1)` — the id with the root's key, not the key
the element had. -/
theorem remove_returns_min_key_not_own_key :
    demoHeap12.get_key 1 = .ok 2 ∧
    (demoHeap12.remove intLt 1).toOption.map Prod.fst = some ⟨1, 1⟩ ∧
    (demoHeap12.remove intLt 1).toOption.map Prod.fst ≠ some ⟨1, 2⟩ :=
  ⟨rfl, rfl, by decide⟩

/-- C2: inserting the `N` keys of `ks` (any multiset: empty, singleton,
duplicates, adversarial order) into a fresh heap and calling
`delete_min` `N` times returns exactly those keys, sorted according to
the comparator (no inversion `lt later earlier`). -/
theorem insert_then_delete_min_sorted {K : Type} {lt : K → K → Bool} (hs : SWO lt)
    (ks : List K) :
    ((extractN lt ks.length (buildHeap lt ks)).map Element.key).Perm ks ∧
    ((extractN lt ks.length (buildHeap lt ks)).map Element.key).Pairwise
      (fun a b => lt b a = false) := by
  obtain ⟨hwf, hkeys, hsz⟩ := buildHeap_spec hs ks
  obtain ⟨hperm, hsort⟩ :=
    extractN_spec hs ks.length (buildHeap lt ks) hwf (le_of_eq hsz)
  exact ⟨(hperm.map Element.key).trans hkeys, hsort⟩

theorem insert_then_delete_min_sorted_witness :
    SWO intLt ∧
    ((extractN intLt ([3, 1, 2, 1] : List Int).length
        (buildHeap intLt [3, 1, 2, 1])).map Element.key).Perm [3, 1, 2, 1] ∧
    ((extractN intLt ([3, 1, 2, 1] : List Int).length
        (buildHeap intLt [3, 1, 2, 1])).map Element.key).Pairwise
      (fun a b => intLt b a = false) :=
  ⟨intLt_swo, insert_then_delete_min_sorted intLt_swo [3, 1, 2, 1]⟩

/-- C3: on every non-empty sibling ring `combine_siblings` computes
exactly the two-phase policy of the specification — left-to-right
pairing (odd leftover appended unmerged) followed by a right-to-left
fold that merges the running result with the next node to its left —
and it returns the empty result on a null input. -/
theorem combine_siblings_matches_two_phase_policy {K : Type} (lt : K → K → Bool) :
    (∀ cs : List (Tree K), combine_siblings lt cs = combineSpec lt cs) ∧
    combine_siblings lt ([] : List (Tree K)) = none :=
  ⟨combine_siblings_eq_combineSpec lt, rfl⟩

/-- C4: `merge` has an absent operand as identity (as realised at its
call sites), makes the node with the smaller-or-equal key the root with
ties resolved in favour of the first argument, splices the loser in as
the winner's new first (anchor-adjacent) child — the sole child if none
existed — performs exactly one comparator call, and allocates nothing
(the result holds exactly the elements of the two operands). -/
theorem merge_contract {K : Type} {lt : K → K → Bool} (hs : SWO lt) :
    (∀ y : Option (Tree K), mergeO lt none y = y ∧ mergeO lt y none = y) ∧
    (∀ x y : Tree K, lt y.rootKey x.rootKey = false →
      merge lt x y = .node x.rootId x.rootKey (y :: x.children)) ∧
    (∀ x y : Tree K, lt y.rootKey x.rootKey = true →
      merge lt x y = .node y.rootId y.rootKey (x :: y.children)) ∧
    (∀ x y : Tree K, lt x.rootKey y.rootKey = false → lt y.rootKey x.rootKey = false →
      (merge lt x y).rootId = x.rootId ∧ (merge lt x y).rootKey = x.rootKey) ∧
    (∀ x y : Tree K, lt x.rootKey (merge lt x y).rootKey = false ∧
      lt y.rootKey (merge lt x y).rootKey = false) ∧
    (∀ x y : Tree K, (merge lt x y).elems.Perm (x.elems ++ y.elems)) ∧
    (∀ x y : Tree K, mergeCount lt x y = (merge lt x y, 1)) := by
  refine ⟨?_, ?_, ?_, ?_, ?_, ?_, ?_⟩
  · intro y
    cases y <;> exact ⟨rfl, rfl⟩
  · intro x y h
    exact merge_of_not_lt h
  · intro x y h
    exact merge_of_lt h
  · intro x y h1 h2
    rw [merge_of_not_lt h2]
    exact ⟨rfl, rfl⟩
  · intro x y
    by_cases hxy : lt y.rootKey x.rootKey = true
    · rw [merge_of_lt hxy]
      exact ⟨hs.asymm _ _ hxy, hs.irrefl _⟩
    · have h0 : lt y.rootKey x.rootKey = false := by simpa using hxy
      rw [merge_of_not_lt h0]
      exact ⟨hs.irrefl _, h0⟩
  · exact merge_elems_perm lt
  · intro x y
    rfl

theorem merge_contract_witness :
    SWO intLt ∧
    merge intLt (Tree.node 0 (5 : Int) []) (Tree.node 1 5 [])
      = Tree.node 0 5 [Tree.node 1 5 []] ∧
    mergeO intLt none (some (Tree.node 2 (9 : Int) [])) = some (Tree.node 2 9 []) :=
  ⟨intLt_swo,
   (merge_contract intLt_swo).2.1 (Tree.node 0 (5 : Int) []) (Tree.node 1 5 []) rfl,
   ((merge_contract intLt_swo).1 (some (Tree.node 2 (9 : Int) []))).1⟩

/-- C5 counterexample: the claim says `decrease_key` with a new key
*not smaller* than the current key (which includes an equal key) is a
silent no-op leaving the tree and ring links exactly unchanged.  On
`PairingHeap(3)` holding `(0,1)`, `(1,2)`, `(2,3)` — root `(0,1)` with
child ring `[(2,3), (1,2)]` — the call `decrease_key(1, 2)` passes the
guard (`less(2, 2)` is false), cuts node 1 and re-merges it, reordering
the root's child ring to `[(1,2), (2,3)]`: the elements in traversal
order change, so the structure is not left unchanged. -/
theorem decrease_key_equal_key_restructures :
    demoHeap123.get_key 1 = .ok 2 ∧ intLt 2 2 = false ∧
    ∃ h2, demoHeap123.decrease_key intLt 1 2 = .ok h2 ∧
      rootElems h2 ≠ rootElems demoHeap123 :=
  ⟨rfl, rfl, _, rfl, by decide⟩

/-- C5 (amended): `decrease_key` with a new key *strictly larger* than
the current key (per the comparator: `less(current, newkey)` holds) is a
silent no-op, not an error, and returns the heap exactly unchanged —
root, size, every key, `pos` table and all tree/ring links.  (With an
*equal* key the call instead restructures, per the documented
equal-key-promotion rule, as the counterexample shows.) -/
theorem decrease_key_noop_when_strictly_larger {K : Type} (lt : K → K → Bool)
    (h : Heap K) (id : Int) {newkey cur : K} (hget : h.get_key id = .ok cur)
    (hgt : lt cur newkey = true) :
    h.decrease_key lt id newkey = .ok h :=
  decrease_key_noop lt hget hgt

theorem decrease_key_noop_when_strictly_larger_witness :
    intLt 1 5 = true ∧ demoHeap12.decrease_key intLt 0 5 = .ok demoHeap12 :=
  ⟨rfl, decrease_key_noop_when_strictly_larger intLt demoHeap12 0 rfl rfl⟩

/-- C6: on a well-formed heap, `decrease_key(id, newkey)` with `newkey`
no larger than the element's current key (the guard `less(cur, newkey)`
fails) and ordered no later than the root's key — equality with the
root key included — makes the addressed node the new root (in place if
it already is the root, otherwise by cut and merge with the node passed
as the first merge argument, so ties promote it), and `find_min` then
returns exactly `(id, newkey)`. -/
theorem decrease_key_to_le_root_promotes {K : Type} [DecidableEq K] {lt : K → K → Bool}
    (hs : SWO lt) {h : Heap K} (hwf : WF lt h) (id : Int) (newkey : K) {cur : K}
    (hget : h.get_key id = .ok cur) (hguard : lt cur newkey = false)
    {r : Tree K} (hroot : h.root = some r) (hle : lt r.rootKey newkey = false) :
    ∃ h2, h.decrease_key lt id newkey = .ok h2 ∧
      ∃ r2, h2.root = some r2 ∧ r2.rootId = id ∧ r2.rootKey = newkey ∧
        h2.find_min = .ok ⟨id, newkey⟩ := by
  have hpos := get_key_ok_pos hget
  obtain ⟨e0, he0, hid, hget2, _⟩ := get_key_ok hwf hpos
  have hcur : cur = e0.key := by
    rw [hget] at hget2
    exact Except.ok.inj hget2
  subst hcur
  obtain ⟨h2, hdk, hwf2, hperm, hsz2, hmax2, hpos2, hprom⟩ :=
    decrease_key_spec hs hwf hpos he0 hid hguard
  obtain ⟨r2, hroot2, hr2id, hr2key⟩ := hprom r hroot hle
  refine ⟨h2, hdk, r2, hroot2, hr2id, hr2key, ?_⟩
  have hsznz : h2.sz ≠ 0 := by
    rw [hsz2]
    intro hc
    have hrn := hwf.root_none_iff.mpr hc
    rw [hroot] at hrn
    cases hrn
  rw [find_min_ok hroot2 hsznz, hr2id, hr2key]

theorem decrease_key_to_le_root_promotes_witness :
    intLt 7 5 = false ∧ intLt 5 5 = false ∧
    ∃ h2, demoHeap57.decrease_key intLt 1 5 = .ok h2 ∧
      ∃ r2, h2.root = some r2 ∧ r2.rootId = 1 ∧ r2.rootKey = 5 ∧
        h2.find_min = .ok ⟨1, 5⟩ :=
  ⟨rfl, rfl,
   decrease_key_to_le_root_promotes intLt_swo
     (runOp_WF intLt_swo (runOp_WF intLt_swo (WF_empty intLt 2) (.opInsert 0 5))
       (.opInsert 1 7))
     1 5 rfl rfl rfl rfl⟩

/-- C7: on a well-formed heap every public operation either completes
(no error) or fails synchronously with exactly the taxonomy error of
its violated precondition — `EMPTY` for `find_min`/`delete_min` on size
0, `BAD_ID` for an id outside `[0, maxsz)`, `ALREADY_EXISTS` for insert
of a live id, `NO_SUCH_ELEMENT` for an in-range dead id — and a failing
operation leaves the heap exactly unchanged; `decrease_key` on a live
id never errors (its non-improving case is the sole silent no-op). -/
theorem ops_fail_atomically_with_taxonomy {K : Type} [DecidableEq K] {lt : K → K → Bool}
    (hs : SWO lt) {h : Heap K} (hwf : WF lt h) :
    (∀ (o : Op K) (e : PHError), (runOp lt h o).2 = some e → (runOp lt h o).1 = h) ∧
    (∀ (id : Int) (k : K), (runOp lt h (.opInsert id k)).2 =
        if id < 0 ∨ h.maxsz ≤ id then some .BAD_ID
        else if h.pos id = true then some .ALREADY_EXISTS else none) ∧
    ((runOp lt h .opFindMin).2 = if h.sz = 0 then some .EMPTY else none) ∧
    ((runOp lt h .opDeleteMin).2 = if h.sz = 0 then some .EMPTY else none) ∧
    (∀ id : Int, (runOp lt h (.opRemove id)).2 =
        if id < 0 ∨ h.maxsz ≤ id then some .BAD_ID
        else if h.pos id = true then none else some .NO_SUCH_ELEMENT) ∧
    (∀ (id : Int) (k : K), (runOp lt h (.opDecreaseKey id k)).2 =
        if id < 0 ∨ h.maxsz ≤ id then some .BAD_ID
        else if h.pos id = true then none else some .NO_SUCH_ELEMENT) ∧
    (∀ id : Int, (runOp lt h (.opGetKey id)).2 =
        if id < 0 ∨ h.maxsz ≤ id then some .BAD_ID
        else if h.pos id = true then none else some .NO_SUCH_ELEMENT) := by
  refine ⟨?_, ?_, ?_, ?_, ?_, ?_, ?_⟩
  · -- a failing operation leaves the heap untouched
    intro o e
    cases o with
    | opInsert id k =>
      cases hop : h.insert lt id k with
      | ok h2 =>
        simp only [runOp, hop]
        intro hc
        cases hc
      | error e2 =>
        simp only [runOp, hop]
        intro _
        trivial
    | opFindMin =>
      cases hop : h.find_min with
      | ok v =>
        simp only [runOp, hop]
        intro hc
        cases hc
      | error e2 =>
        simp only [runOp, hop]
        intro _
        trivial
    | opDeleteMin =>
      cases hop : h.delete_min lt with
      | ok v =>
        simp only [runOp, hop]
        intro hc
        cases hc
      | error e2 =>
        simp only [runOp, hop]
        intro _
        trivial
    | opRemove id =>
      cases hop : h.remove lt id with
      | ok v =>
        simp only [runOp, hop]
        intro hc
        cases hc
      | error e2 =>
        simp only [runOp, hop]
        intro _
        trivial
    | opDecreaseKey id k =>
      cases hop : h.decrease_key lt id k with
      | ok h2 =>
        simp only [runOp, hop]
        intro hc
        cases hc
      | error e2 =>
        simp only [runOp, hop]
        intro _
        trivial
    | opGetKey id =>
      cases hop : h.get_key id with
      | ok v =>
        simp only [runOp, hop]
        intro hc
        cases hc
      | error e2 =>
        simp only [runOp, hop]
        intro _
        trivial
  · -- insert
    intro id k
    by_cases hbad : id < 0 ∨ h.maxsz ≤ id
    · rw [if_pos hbad]
      simp only [runOp, insert_err_bad lt k hbad]
    · rw [if_neg hbad]
      by_cases hp : h.pos id = true
      · rw [if_pos hp]
        simp only [runOp, insert_err_dup lt k hbad hp]
      · rw [if_neg hp]
        obtain ⟨h2, hins, _⟩ :=
          insert_spec hs hwf id k (by omega) (by omega) (by simpa using hp)
        simp only [runOp, hins]
  · -- find_min
    by_cases hsz : h.sz = 0
    · rw [if_pos hsz]
      simp only [runOp, find_min_err hsz]
    · rw [if_neg hsz]
      rcases hr : h.root with _ | r
      · exact absurd (hwf.root_none_iff.mp hr) hsz
      · simp only [runOp, find_min_ok hr hsz]
  · -- delete_min
    by_cases hsz : h.sz = 0
    · rw [if_pos hsz]
      simp only [runOp, delete_min_err lt hsz]
    · rw [if_neg hsz]
      obtain ⟨r, h2, hr, hdm, _⟩ := delete_min_spec hs hwf hsz
      simp only [runOp, hdm]
  · -- remove
    intro id
    by_cases hbad : id < 0 ∨ h.maxsz ≤ id
    · rw [if_pos hbad]
      simp only [runOp, remove_err lt (ensure_existing_bad hbad)]
    · rw [if_neg hbad]
      by_cases hp : h.pos id = true
      · rw [if_pos hp]
        have hmem := (hwf.pos_iff id).mp hp
        rcases List.mem_map.mp hmem with ⟨e0, he0, hid⟩
        obtain ⟨r, h2, hr, hrm, _⟩ := remove_spec hs hwf hp he0 hid
        simp only [runOp, hrm]
      · rw [if_neg hp]
        simp only [runOp,
          remove_err lt (ensure_existing_dead hbad (by simpa using hp))]
  · -- decrease_key
    intro id k
    by_cases hbad : id < 0 ∨ h.maxsz ≤ id
    · rw [if_pos hbad]
      simp only [runOp, decrease_key_err lt k (get_key_err_bad hbad)]
    · rw [if_neg hbad]
      by_cases hp : h.pos id = true
      · rw [if_pos hp]
        obtain ⟨e0, he0, hid, hget, _⟩ := get_key_ok hwf hp
        by_cases hguard : lt e0.key k = true
        · simp only [runOp, decrease_key_noop lt hget hguard]
        · obtain ⟨h2, hdk, _⟩ :=
            decrease_key_spec hs hwf hp he0 hid (by simpa using hguard)
          simp only [runOp, hdk]
      · rw [if_neg hp]
        simp only [runOp,
          decrease_key_err lt k (get_key_err_dead hbad (by simpa using hp))]
  · -- get_key
    intro id
    by_cases hbad : id < 0 ∨ h.maxsz ≤ id
    · rw [if_pos hbad]
      simp only [runOp, get_key_err_bad hbad]
    · rw [if_neg hbad]
      by_cases hp : h.pos id = true
      · rw [if_pos hp]
        obtain ⟨e0, he0, hid, hget, _⟩ := get_key_ok hwf hp
        simp only [runOp, hget]
      · rw [if_neg hp]
        simp only [runOp, get_key_err_dead hbad (by simpa using hp)]

theorem ops_fail_atomically_with_taxonomy_witness :
    (runOp intLt (Heap.empty Int 1) .opDeleteMin).2 = some PHError.EMPTY ∧
    (runOp intLt (Heap.empty Int 1) .opDeleteMin).1 = Heap.empty Int 1 ∧
    (runOp intLt (Heap.empty Int 1) (.opInsert 5 0)).2 = some PHError.BAD_ID := by
  have hmain := ops_fail_atomically_with_taxonomy intLt_swo (WF_empty intLt 1)
  refine ⟨?_, ?_, ?_⟩
  · rw [hmain.2.2.2.1]
    decide
  · exact hmain.1 .opDeleteMin .EMPTY (by rw [hmain.2.2.2.1]; decide)
  · rw [hmain.2.1 5 0]
    decide

/-- C8: in every state reachable from a freshly constructed heap by any
sequence of public operations, the tree rooted at `root` is heap
ordered — every node's key is ordered no later (per the comparator)
than every key in its subtree — and in particular the root holds a
minimal key. -/
theorem reachable_heap_order {K : Type} [DecidableEq K] {lt : K → K → Bool}
    (hs : SWO lt) {h : Heap K} (hreach : Reachable lt h) :
    ∀ r, h.root = some r →
      HeapOrd lt r ∧ ∀ e ∈ r.elems, lt e.key r.rootKey = false := by
  intro r hr
  have hwf := Reachable_WF hs hreach
  exact ⟨hwf.ord r hr, (hwf.ord r hr).le_root hs⟩

theorem reachable_heap_order_witness :
    HeapOrd intLt (Tree.node 1 3 [Tree.node 0 5 []]) ∧
    ∀ e ∈ (Tree.node 1 3 [Tree.node 0 5 []]).elems,
      intLt e.key (Tree.node 1 3 [Tree.node 0 5 []]).rootKey = false :=
  reachable_heap_order intLt_swo
    (Reachable.step (.opInsert 1 3) (Reachable.step (.opInsert 0 5) (Reachable.empty 2)))
    (Tree.node 1 3 [Tree.node 0 5 []]) (by rfl)

/-- C9: the destructor does free every live node exactly once
(`destructOrder` is a permutation of the stored elements, for every
tree), but the claim that the release avoids unbounded call-stack
recursion is false: `recursively_destruct` (PairingHeap.h:220-233, with
its own `TODO: eliminate recursion`) recurses into each child's subtree
on the call stack, and on the chain heap produced by `n+1` descending
public inserts the recursion nests `n+1` frames deep — unbounded in the
heap size. -/
theorem destruct_frees_once_but_recursion_depth_unbounded :
    (∀ (K : Type) (t : Tree K), (destructOrder t).Perm t.elems) ∧
    (∀ n : Nat, (descHeap ((n : Int) + 1) (n + 1)).root = some (chainTree n) ∧
      destructDepth (chainTree n) = n + 1) :=
  ⟨fun _ t => destructOrder_perm t,
   fun n => ⟨(descHeap_eq ((n : Int) + 1) n le_rfl).2.2.2, destructDepth_chainTree n⟩⟩

/-- C10: `decrease_key` validates its target before applying the no-op
rule: an out-of-range id throws `BAD_ID` and an in-range dead id throws
`NO_SUCH_ELEMENT`, for every `newkey` — the silent-ignore path is
reachable only for live ids, because the guard reads
`get_key(id)` which performs `ensure_existing` first. -/
theorem decrease_key_validates_before_noop {K : Type} (lt : K → K → Bool)
    (h : Heap K) (id : Int) (newkey : K) :
    (id < 0 ∨ h.maxsz ≤ id → h.decrease_key lt id newkey = .error .BAD_ID) ∧
    (¬(id < 0 ∨ h.maxsz ≤ id) → h.pos id = false →
      h.decrease_key lt id newkey = .error .NO_SUCH_ELEMENT) :=
  ⟨fun hbad => decrease_key_err lt newkey (get_key_err_bad hbad),
   fun hok hpos => decrease_key_err lt newkey (get_key_err_dead hok hpos)⟩

theorem decrease_key_validates_before_noop_witness :
    (Heap.empty Int 1).decrease_key intLt 5 (-100) = .error PHError.BAD_ID ∧
    (Heap.empty Int 1).decrease_key intLt 0 (-100) = .error PHError.NO_SUCH_ELEMENT :=
  ⟨(decrease_key_validates_before_noop intLt (Heap.empty Int 1) 5 (-100)).1 (by decide),
   (decrease_key_validates_before_noop intLt (Heap.empty Int 1) 0 (-100)).2
     (by decide) rfl⟩

end PH
